import Mathlib

/-!
Verification of the mcp-docs documentation search engine.

JavaScript strings are modelled as lists of characters (`Str := List Char`);
this is exact for the Basic Multilingual Plane, where JS string length and
per-index access agree with the list model.  Regular-expression tests from the
source are implemented as equivalent decidable functions on `Str`, each one
documented next to the regex it translates.  Floating-point arithmetic in the
source appears only in threshold comparisons such as
`lastParagraphBreak > maxLength * 0.7`; these are modelled with exact rational
arithmetic, which agrees with the source except on exact ties of the
double-precision product.
-/

namespace McpDocs

/-- JavaScript strings as lists of characters. -/
abbrev Str := List Char

/-- The JavaScript whitespace class: the regex class backslash-s, which is
also the character set removed by String.prototype.trim. -/
def jsWs (c : Char) : Bool :=
  c == ' ' || c == '\t' || c == '\n' || c == '\x0B' || c == '\x0C' || c == '\r' ||
  c == '\u00A0' || c == '\u1680' || (0x2000 ≤ c.val && c.val ≤ 0x200A) ||
  c == '\u2028' || c == '\u2029' || c == '\u202F' || c == '\u205F' || c == '\u3000' ||
  c == '\uFEFF'

/-- Drop leading JS whitespace. -/
def jsLtrim (s : Str) : Str := s.dropWhile jsWs

/-- Drop trailing JS whitespace. -/
def jsRtrim (s : Str) : Str := (s.reverse.dropWhile jsWs).reverse

/-- JavaScript String.prototype.trim. -/
def jsTrim (s : Str) : Str := jsRtrim (jsLtrim s)

/-- JavaScript content.split with a newline separator. -/
def splitNl : Str → List Str
  | [] => [[]]
  | c :: t =>
    if c = '\n' then [] :: splitNl t
    else
      match splitNl t with
      | [] => [[c]]
      | l :: ls => (c :: l) :: ls

/-- JavaScript Array.prototype.join with a newline separator. -/
def icalNl : List Str → Str
  | [] => []
  | [l] => l
  | l :: l2 :: ls => l ++ '\n' :: icalNl (l2 :: ls)

/-- Worker for `collapseNl`; the accumulator counts pending consecutive
newline characters that have been read but not yet emitted. -/
def collapseAux : Nat → Str → Str
  | k, [] => List.replicate (min k 2) '\n'
  | k, c :: t =>
    if c = '\n' then collapseAux (k + 1) t
    else List.replicate (min k 2) '\n' ++ c :: collapseAux 0 t

/-- JavaScript s.replace of runs of three or more newlines by exactly two
(the global regex replace in the cleaner's post-pass). -/
def collapseNl (s : Str) : Str := collapseAux 0 s

/-- Case-insensitive prefix test for an ASCII lowercase pattern, matching the
semantics of an /i regex on ASCII pattern characters (the i flag folds only
ASCII letters when the u flag is absent). -/
def ciHasPre (pat : Str) (s : Str) : Bool :=
  List.isPrefixOf pat (s.map Char.toLower)

/-- Leading hash count followed by the regex tail `#{1,3}\s*(phrase)`,
case-insensitively, as used by the TOC and skip-section header patterns.
The hash run and the whitespace run are both maximal, which agrees with the
backtracking regex because a hash is not whitespace and no phrase starts
with a hash or with whitespace. -/
def hashPhraseMatch (phrases : List Str) (line : Str) : Bool :=
  let t := jsTrim line
  let h := (t.takeWhile (fun c => c == '#')).length
  (1 ≤ h && h ≤ 3) &&
    phrases.any (fun p => ciHasPre p ((t.drop h).dropWhile jsWs))

/-- Phrases of TOC_HEADER_PATTERNS from markdown-cleaner.ts. -/
def tocPhrases : List Str :=
  [("in this article").toList, ("in this page").toList, ("in this section").toList,
   ("in this document").toList, ("in this guide").toList, ("on this page").toList,
   ("table of contents").toList, ("contents").toList, ("quick links").toList,
   ("navigation").toList, ("jump to").toList]

/-- Phrases of SKIP_SECTION_PATTERNS from markdown-cleaner.ts; the optional
plural s of the regex is subsumed by prefix matching on the singular. -/
def skipPhrases : List Str :=
  [("related article").toList, ("related page").toList, ("related link").toList,
   ("related resource").toList, ("see also").toList, ("next steps").toList,
   ("additional resources").toList, ("feedback").toList, ("contribute").toList,
   ("help us improve").toList]

/-- isTocHeader from markdown-cleaner.ts (matchesAny tests the trimmed line). -/
def isTocHeader (line : Str) : Bool := hashPhraseMatch tocPhrases line

/-- isSkipSectionHeader from markdown-cleaner.ts. -/
def isSkipSectionHeader (line : Str) : Bool := hashPhraseMatch skipPhrases line

/-- getHeaderLevel from markdown-cleaner.ts: the trimmed line must start with
one to six hashes followed by at least one whitespace character; otherwise 0. -/
def getHeaderLevel (line : Str) : Nat :=
  let t := jsTrim line
  let h := (t.takeWhile (fun c => c == '#')).length
  match t.drop h with
  | c :: _ => if 1 ≤ h && h ≤ 6 && jsWs c then h else 0
  | [] => 0

/-- Breadcrumb separator characters of the breadcrumb regex. -/
def crumbSep (c : Char) : Bool := c == '>' || c == '›' || c == '»' || c == '/'

/-- Characters of the breadcrumb segment class: ASCII letters, digits and JS
whitespace. -/
def crumbSeg (c : Char) : Bool := c.isAlpha || c.isDigit || jsWs c

/-- Split a string at every character satisfying p, keeping empty pieces. -/
def splitPred (p : Char → Bool) : Str → List Str
  | [] => [[]]
  | c :: t =>
    if p c then [] :: splitPred p t
    else
      match splitPred p t with
      | [] => [[c]]
      | l :: ls => (c :: l) :: ls

/-- The anchored breadcrumb regex of REMOVE_LINE_PATTERNS: a full match is a
sequence of at least three nonempty segments of letters, digits and
whitespace, joined by breadcrumb separators. -/
def breadcrumbLine (t : Str) : Bool :=
  let pieces := splitPred crumbSep t
  (3 ≤ pieces.length) && pieces.all (fun p => !p.isEmpty && p.all crumbSeg)

/-- Prefix alternatives of the last-updated pattern. -/
def updatedPres : List Str :=
  [("last updated").toList, ("last modified").toList, ("last edited").toList,
   ("updated on").toList, ("edit this page").toList]

/-- Prefix alternatives of the feedback-prompt pattern. -/
def feedbackPres : List Str :=
  [("was this page").toList, ("was this article").toList, ("was this helpful").toList,
   ("rate this").toList, ("feedback").toList, ("did this help").toList]

/-- Prefix alternatives of the share-links pattern. -/
def sharePres : List Str :=
  [("share").toList, ("tweet").toList, ("follow us").toList]

/-- Prefix alternatives of the cookie-consent pattern; the optional group of
the regex expands to the two accept alternatives. -/
def cookiePres : List Str :=
  [("we use cookies").toList, ("cookie policy").toList, ("cookie settings").toList,
   ("accept cookies").toList, ("accept all cookies").toList]

/-- Strip an ASCII pattern from the front of an already-lowercased string. -/
def stripLower (pat : Str) (s : Str) : Option Str :=
  if List.isPrefixOf pat s then some (s.drop pat.length) else none

/-- The read-time regex of REMOVE_LINE_PATTERNS: digits, optional whitespace,
min with optional ute and optional s, optional whitespace, then read
(a prefix of reading).  Greedy matching of each optional piece agrees with
the backtracking regex because no following literal starts with the same
character as an optional piece it could steal. -/
def minReadMatch (t : Str) : Bool :=
  let l := t.map Char.toLower
  let ds := l.takeWhile Char.isDigit
  !ds.isEmpty &&
    (let r := (l.drop ds.length).dropWhile jsWs
     match stripLower (("min").toList) r with
     | none => false
     | some r1 =>
       let r2 := match stripLower (("ute").toList) r1 with
         | some x => x
         | none => r1
       let r3 := match stripLower (("s").toList) r2 with
         | some x => x
         | none => r2
       List.isPrefixOf (("read").toList) (r3.dropWhile jsWs))

/-- Contiguous-substring test. -/
def hasSub (pat : Str) : Str → Bool
  | [] => List.isPrefixOf pat []
  | c :: t => List.isPrefixOf pat (c :: t) || hasSub pat t

/-- The anchored in-page anchor-link regex: an opening bracket, anything, a
closing bracket directly followed by an opening parenthesis and a hash,
anything, then a closing parenthesis at the end of the line. -/
def anchorLine (t : Str) : Bool :=
  match t with
  | '[' :: rest =>
    rest.getLast? == some ')' && hasSub (("](#").toList) rest.dropLast
  | _ => false

/-- shouldRemoveLine from markdown-cleaner.ts: empty trimmed lines are kept,
otherwise the trimmed line is tested against every REMOVE_LINE pattern. -/
def shouldRemoveLine (line : Str) : Bool :=
  let t := jsTrim line
  if t.isEmpty then false
  else
    breadcrumbLine t || updatedPres.any (fun p => ciHasPre p t) ||
    feedbackPres.any (fun p => ciHasPre p t) || minReadMatch t ||
    sharePres.any (fun p => ciHasPre p t) || cookiePres.any (fun p => ciHasPre p t) ||
    anchorLine t

/-- isTocEntry from markdown-cleaner.ts: the anchored regex for an optional
list marker, optional whitespace, then a markdown link with nonempty text and
nonempty target, at the end of the trimmed line.  The marker and whitespace
are consumed deterministically because a bracket is neither a marker nor
whitespace. -/
def isTocEntry (line : Str) : Bool :=
  let t := jsTrim line
  let t1 := match t with
    | c :: r => if c == '-' || c == '*' then r else t
    | [] => t
  match t1.dropWhile jsWs with
  | '[' :: rest =>
    rest.getLast? == some ')' &&
      hasSub (("](").toList) ((rest.drop 1).dropLast.dropLast)
  | _ => false

/-- The line loop of cleanMarkdown, carrying the four mutable variables
skipUntilHeaderLevel, inTocSection, tocHeaderLevel and consecutiveEmptyLines
of the source as arguments; returns the kept lines. -/
def cleanLines : List Str → Nat → Bool → Nat → Nat → List Str
  | [], _, _, _, _ => []
  | line :: rest, skipU0, inToc0, tocLvl0, cnt =>
    let trimmed := jsTrim line
    let hl := getHeaderLevel line
    let skipU1 := if 0 < skipU0 && 0 < hl && hl ≤ skipU0 then 0 else skipU0
    let inToc1 := if inToc0 && 0 < hl && hl ≤ tocLvl0 then false else inToc0
    let tocLvl1 := if inToc0 && 0 < hl && hl ≤ tocLvl0 then 0 else tocLvl0
    if 0 < skipU1 then cleanLines rest skipU1 inToc1 tocLvl1 cnt
    else if isSkipSectionHeader line then
      cleanLines rest (if hl == 0 then 1 else hl) inToc1 tocLvl1 cnt
    else if isTocHeader line then
      cleanLines rest skipU1 true (if hl == 0 then 1 else hl) cnt
    else if inToc1 && (isTocEntry line || trimmed.isEmpty) then
      cleanLines rest skipU1 inToc1 tocLvl1 cnt
    else
      let inToc2 := if inToc1 && !trimmed.isEmpty && !isTocEntry line then false else inToc1
      let tocLvl2 := if inToc1 && !trimmed.isEmpty && !isTocEntry line then 0 else tocLvl1
      if shouldRemoveLine line then cleanLines rest skipU1 inToc2 tocLvl2 cnt
      else if trimmed.isEmpty then
        if 2 < cnt + 1 then cleanLines rest skipU1 inToc2 tocLvl2 (cnt + 1)
        else line :: cleanLines rest skipU1 inToc2 tocLvl2 (cnt + 1)
      else line :: cleanLines rest skipU1 inToc2 tocLvl2 0

/-- cleanMarkdown from markdown-cleaner.ts: split into lines, run the line
filter, join with newlines, trim, and collapse runs of three or more
newlines to two. -/
def cleanMarkdown (content : Str) : Str :=
  collapseNl (jsTrim (icalNl (cleanLines (splitNl content) 0 false 0 0)))

/-- A line whose trimmed form is empty; these drive the consecutive-empty
counter of the cleaner's line loop. -/
def isBlankLine (l : Str) : Bool := (jsTrim l).isEmpty

/-- A line containing no newline character, as produced by splitNl. -/
def nlFreeLine (l : Str) : Bool := l.all (fun c => !(c == '\n'))

/-- A line made only of JS whitespace characters. -/
def allWsLine (l : Str) : Bool := l.all jsWs

/-- A line that the cleaner's line loop never removes for its own content:
it is no skip-section header, no TOC header, and matches no remove pattern. -/
def keepLine (l : Str) : Bool :=
  !(isSkipSectionHeader l) && !(isTocHeader l) && !(shouldRemoveLine l)

/-- Scanning check that, starting from cnt pending consecutive blank lines,
no run of blank lines ever exceeds two. -/
def blanksOK : Nat → List Str → Bool
  | _, [] => true
  | cnt, l :: rest =>
    if isBlankLine l then decide (cnt + 1 ≤ 2) && blanksOK (cnt + 1) rest
    else blanksOK 0 rest

/-- Scanning check that, with k pending consecutive newline characters, no
newline run ever exceeds two. -/
def nlRunOk : Nat → Str → Bool
  | _, [] => true
  | k, c :: t =>
    if c = '\n' then decide (k + 1 ≤ 2) && nlRunOk (k + 1) t
    else nlRunOk 0 t

/-- Left trim of a joined line list, at the line level: all-whitespace
leading lines vanish and the first remaining line is left-trimmed. -/
def ltrimLines : List Str → List Str
  | [] => []
  | [l] => [jsLtrim l]
  | l :: l2 :: rest =>
    if allWsLine l then ltrimLines (l2 :: rest) else jsLtrim l :: l2 :: rest

/-- Right trim of a joined line list, at the line level: all-whitespace
trailing lines vanish and the last remaining line is right-trimmed. -/
def rtrimLines : List Str → List Str
  | [] => []
  | l :: rest =>
    if rest.all allWsLine then [jsRtrim l] else l :: rtrimLines rest

/-- Newline-run collapsing of a joined line list, at the line level: every
maximal run of zero-length lines becomes a single zero-length line. -/
def compress : List Str → List Str
  | [] => []
  | l :: rest =>
    if l.isEmpty then [] :: compress (rest.dropWhile (fun x => x.isEmpty))
    else l :: compress rest
termination_by ls => ls.length
decreasing_by
  all_goals simp only [List.length_cons]
  · exact Nat.lt_succ_of_le (List.dropWhile_sublist _).length_le
  · omega

/-- The skipUntilHeaderLevel update at the top of the loop body. -/
def skipStep (line : Str) (skipU0 : Nat) : Nat :=
  if 0 < skipU0 && 0 < getHeaderLevel line && getHeaderLevel line ≤ skipU0
  then 0 else skipU0

/-- The inTocSection update at the top of the loop body. -/
def tocFlagStep (line : Str) (inToc0 : Bool) (tocLvl0 : Nat) : Bool :=
  if inToc0 && 0 < getHeaderLevel line && getHeaderLevel line ≤ tocLvl0
  then false else inToc0

/-- The tocHeaderLevel update at the top of the loop body. -/
def tocLvlStep (line : Str) (inToc0 : Bool) (tocLvl0 : Nat) : Nat :=
  if inToc0 && 0 < getHeaderLevel line && getHeaderLevel line ≤ tocLvl0
  then 0 else tocLvl0

/-- The inTocSection exit update on a contentful non-entry line. -/
def tocFlagExit (line : Str) (i1 : Bool) : Bool :=
  if i1 && !(jsTrim line).isEmpty && !isTocEntry line then false else i1

/-- The tocHeaderLevel exit update on a contentful non-entry line. -/
def tocLvlExit (line : Str) (i1 : Bool) (t1 : Nat) : Nat :=
  if i1 && !(jsTrim line).isEmpty && !isTocEntry line then 0 else t1

/-- JavaScript String.prototype.lastIndexOf for a nonempty pattern: the
largest start index of an occurrence, or minus one. -/
def lastIdxOfSub (pat : Str) (s : Str) : Int :=
  match ((List.range (s.length + 1)).filter
      (fun i => List.isPrefixOf pat (s.drop i))).getLast? with
  | some i => (i : Int)
  | none => -1

/-- Sentence punctuation class of the sentence-boundary regex. -/
def sentencePunct (c : Char) : Bool := c == '.' || c == '!' || c == '?'

/-- Whether the sentence-boundary regex matches starting at the head of the
given suffix: punctuation, one or more whitespace, an ASCII capital, then no
further punctuation up to the end of the string.  The whitespace run is
maximal, which agrees with the regex because a capital is not whitespace. -/
def sentenceMatchAt : Str → Bool
  | [] => false
  | c :: rest =>
    sentencePunct c &&
      (let w := rest.takeWhile jsWs
       let r := rest.dropWhile jsWs
       !w.isEmpty &&
         match r with
         | d :: r2 => ('A' ≤ d && d ≤ 'Z') && r2.all (fun x => !sentencePunct x)
         | [] => false)

/-- JavaScript String.prototype.search for the sentence-boundary regex: the
least index where the regex matches, or minus one. -/
def sentenceSearch (s : Str) : Int :=
  match (List.range s.length).find? (fun i => sentenceMatchAt (s.drop i)) with
  | some i => (i : Int)
  | none => -1

/-- The truncation marker appended by truncateContent (22 characters). -/
def truncMarker : Str := ("[Content truncated...]").toList

/-- truncateContent from markdown-cleaner.ts.  The three threshold
comparisons against 0.7, 0.8 and 0.9 times maxLength are modelled with exact
rationals. -/
def truncateContent (content : Str) (maxLength : Nat) : Str :=
  if content.length ≤ maxLength then content
  else
    let truncated := content.take maxLength
    let lastPara := lastIdxOfSub ['\n', '\n'] truncated
    if (lastPara : ℚ) > (maxLength : ℚ) * (7 / 10) then
      truncated.take lastPara.toNat ++ '\n' :: '\n' :: truncMarker
    else
      let lastSentence := sentenceSearch truncated
      if (lastSentence : ℚ) > (maxLength : ℚ) * (8 / 10) then
        truncated.take (lastSentence.toNat + 1) ++ '\n' :: '\n' :: truncMarker
      else
        let lastSpace := lastIdxOfSub [' '] truncated
        if (lastSpace : ℚ) > (maxLength : ℚ) * (9 / 10) then
          truncated.take lastSpace.toNat ++ '.' :: '.' :: '.' :: '\n' :: '\n' :: truncMarker
        else truncated ++ '.' :: '.' :: '.' :: '\n' :: '\n' :: truncMarker

/-! ## Repository: FTS query preparation and hybrid search (db/repository.ts) -/

/-- The FTS5 special characters removed by prepareFtsQuery. -/
def ftsSpecial (c : Char) : Bool :=
  c == '"' || c == '(' || c == ')' || c == '*' || c == '-' || c == '+' ||
  c == ':' || c == '^'

/-- Maximal runs of characters not satisfying p, in order, without empties
(the JavaScript split on a one-or-more separator regex, after dropping empty
pieces). -/
def wordsBy (p : Char → Bool) : Str → List Str
  | [] => []
  | c :: t =>
    if p c then wordsBy p t
    else (c :: t.takeWhile (fun x => !p x)) :: wordsBy p (t.dropWhile (fun x => !p x))
termination_by s => s.length
decreasing_by
  all_goals simp only [List.length_cons]
  · omega
  · exact Nat.lt_succ_of_le (List.dropWhile_sublist _).length_le

/-- JavaScript Array.prototype.join with an arbitrary separator. -/
def icalSep (sep : Str) : List Str → Str
  | [] => []
  | [l] => l
  | l :: l2 :: ls => l ++ sep ++ icalSep sep (l2 :: ls)

/-- prepareFtsQuery from db/repository.ts: replace each FTS5 special
character by a space, trim, split on whitespace runs dropping empty terms;
an empty term list yields the empty phrase, otherwise each term is quoted,
suffixed with a star, and the terms are joined with OR. -/
def prepareFtsQuery (query : Str) : Str :=
  let cleaned := jsTrim (query.map (fun c => if ftsSpecial c then ' ' else c))
  let terms := (wordsBy jsWs cleaned).filter (fun t => !t.isEmpty)
  if terms.isEmpty then ['"', '"']
  else
    icalSep (' ' :: 'O' :: 'R' :: [' ']) (terms.map (fun t => '"' :: t ++ ['"', '*']))

/-- Modelled from the spec: a query character that separates FTS terms,
namely whitespace or one of the stripped special characters. -/
def termBreak (c : Char) : Bool := jsWs c || ftsSpecial c

/-- A chunk search row as returned by the repository search methods. -/
structure ChunkSearchResult where
  document_id : Nat
  chunk_content : Str
  title : Str
  url : Str
  path : Option Str
  source_name : Str
  distance : ℚ
deriving DecidableEq, Repr

/-- The fusion key of searchChunksHybrid: the url, a colon, and the first
hundred characters of the chunk content, as one string. -/
def rrfKey (r : ChunkSearchResult) : Str :=
  r.url ++ ':' :: r.chunk_content.take 100

/-- The reciprocal-rank-fusion addend 1 / (k + rank + 1) with k = 60. -/
def rrfq (rank : Nat) : ℚ := 1 / (60 + (rank : ℚ) + 1)

/-- JavaScript Map.prototype.set on an insertion-ordered association list:
replace in place when the key exists, append otherwise. -/
def setBucket (key : Str) (v : ChunkSearchResult × ℚ) :
    List (Str × ChunkSearchResult × ℚ) → List (Str × ChunkSearchResult × ℚ)
  | [] => [(key, v)]
  | (k, w) :: t => if k = key then (k, v) :: t else (k, w) :: setBucket key v t

/-- The FTS pass of searchChunksHybrid: add the addend to an existing bucket
in place, or append a new bucket. -/
def addBucket (key : Str) (r : ChunkSearchResult) (sc : ℚ) :
    List (Str × ChunkSearchResult × ℚ) → List (Str × ChunkSearchResult × ℚ)
  | [] => [(key, (r, sc))]
  | (k, (w, s)) :: t =>
    if k = key then (k, (w, s + sc)) :: t else (k, (w, s)) :: addBucket key r sc t

/-- The vector-leg forEach of searchChunksHybrid, with the running rank. -/
def vecPass (i : Nat) : List ChunkSearchResult →
    List (Str × ChunkSearchResult × ℚ) → List (Str × ChunkSearchResult × ℚ)
  | [], m => m
  | r :: t, m => vecPass (i + 1) t (setBucket (rrfKey r) (r, rrfq i) m)

/-- The FTS-leg forEach of searchChunksHybrid, with the running rank. -/
def ftsPass (i : Nat) : List ChunkSearchResult →
    List (Str × ChunkSearchResult × ℚ) → List (Str × ChunkSearchResult × ℚ)
  | [], m => m
  | r :: t, m => ftsPass (i + 1) t (addBucket (rrfKey r) r (rrfq i) m)

/-- Descending order on the combined score, as the JavaScript stable sort
with the comparator on b.score minus a.score. -/
def byScoreDesc (a b : Str × ChunkSearchResult × ℚ) : Prop := b.2.2 ≤ a.2.2

instance : DecidableRel byScoreDesc := fun a b => inferInstanceAs (Decidable (b.2.2 ≤ a.2.2))

instance : IsTotal (Str × ChunkSearchResult × ℚ) byScoreDesc :=
  ⟨fun a b => le_total b.2.2 a.2.2⟩

instance : IsTrans (Str × ChunkSearchResult × ℚ) byScoreDesc :=
  ⟨fun _ _ _ h1 h2 => le_trans h2 h1⟩

/-- searchChunksHybrid from db/repository.ts, as a function of the two
already-fetched search legs: fall back to the vector order when the FTS leg
is empty, otherwise fuse with reciprocal rank fusion keyed by
url-colon-content-head, sort stably by descending combined score, truncate to
the limit, and report distance as one minus the combined score. -/
def searchChunksHybrid (vectorResults ftsResults : List ChunkSearchResult)
    (limit : Nat) : List ChunkSearchResult :=
  if ftsResults.length = 0 then vectorResults.take limit
  else
    let buckets := ftsPass 0 ftsResults (vecPass 0 vectorResults [])
    let sorted := List.insertionSort byScoreDesc buckets
    (sorted.take limit).map (fun kv => { kv.2.1 with distance := 1 - kv.2.2 })

/-- Modelled from the spec: reciprocal rank fusion keyed by the pair of url
and first hundred characters of the chunk, where every result of each leg at
rank r contributes 1 / (60 + r + 1) to its pair's combined score.  This is
the fusion that claim C3 describes; it is compared against the source
translation `searchChunksHybrid`. -/
def rrfFuseSpec (vectorResults ftsResults : List ChunkSearchResult)
    (limit : Nat) : List ChunkSearchResult :=
  if ftsResults.length = 0 then vectorResults.take limit
  else
    let key := fun (r : ChunkSearchResult) => (r.url, r.chunk_content.take 100)
    let addPair := fun (k : Str × Str) (r : ChunkSearchResult) (sc : ℚ)
        (m : List ((Str × Str) × ChunkSearchResult × ℚ)) =>
      if m.any (fun kv => kv.1 = k) then
        m.map (fun kv => if kv.1 = k then (kv.1, (kv.2.1, kv.2.2 + sc)) else kv)
      else m ++ [(k, (r, sc))]
    let step := fun (m : List ((Str × Str) × ChunkSearchResult × ℚ))
        (leg : List ChunkSearchResult) =>
      (leg.enum.foldl (fun acc p => addPair (key p.2) p.2 (rrfq p.1) acc) m)
    let buckets := step (step [] vectorResults) ftsResults
    let sorted := List.insertionSort
      (fun a b : (Str × Str) × ChunkSearchResult × ℚ => b.2.2 ≤ a.2.2) buckets
    (sorted.take limit).map (fun kv => { kv.2.1 with distance := 1 - kv.2.2 })

/-- The total FTS-leg contribution to a key: the sum of addends of all FTS
results carrying the key. -/
def ftsScoreOf (i : Nat) (fts : List ChunkSearchResult) (key : Str) : ℚ :=
  match fts with
  | [] => 0
  | r :: t =>
    (if rrfKey r = key then rrfq i else 0) + ftsScoreOf (i + 1) t key

/-! ## Store model: documents and chunks (db/repository.ts upsertDocument) -/

/-- A row of the documents table. -/
structure DocumentRow where
  id : Nat
  source_id : Nat
  url : Str
  title : Str
  path : Option Str
  content : Str
  content_hash : Str
  metadata : Option Str
  updated_at : Nat
deriving DecidableEq, Repr

/-- A row of the chunks table. -/
structure ChunkRow where
  document_id : Nat
  chunk_index : Nat
  content : Str
  embedding : List ℚ
  token_count : Nat
deriving DecidableEq, Repr

/-- The persistent store owned by the repository: each SQL statement commits
on its own (the libsql client autocommits; the source opens no transaction). -/
structure Store where
  docs : List DocumentRow
  chunks : List ChunkRow
  nextDocId : Nat
deriving DecidableEq, Repr

/-- The arguments of upsertDocument. -/
structure UpsertDocArgs where
  sourceId : Nat
  url : Str
  title : Str
  path : Option Str
  content : Str
  contentHash : Str
  metadata : Option Str
deriving DecidableEq, Repr

/-- Whether a document row is the conflict target of the given arguments. -/
def docMatches (a : UpsertDocArgs) (d : DocumentRow) : Bool :=
  d.source_id == a.sourceId && d.url == a.url

/-- The first statement of upsertDocument: delete every chunk row whose
document belongs to the (source_id, url) pair. -/
def deleteChunksFor (st : Store) (a : UpsertDocArgs) : Store :=
  { st with
    chunks := st.chunks.filter
      (fun c => !(st.docs.any (fun d => docMatches a d && d.id == c.document_id))) }

/-- The second statement of upsertDocument: insert the document row, or on
conflict update every field and the update timestamp. -/
def upsertDocRow (st : Store) (a : UpsertDocArgs) (now : Nat) : Store × Nat :=
  if st.docs.any (docMatches a) then
    ({ st with
        docs := st.docs.map (fun d =>
          if docMatches a d then
            { d with title := a.title, path := a.path, content := a.content,
                     content_hash := a.contentHash, metadata := a.metadata,
                     updated_at := now }
          else d) },
     ((st.docs.find? (docMatches a)).map DocumentRow.id).getD 0)
  else
    let newDoc : DocumentRow :=
      { id := st.nextDocId, source_id := a.sourceId, url := a.url,
        title := a.title, path := a.path, content := a.content,
        content_hash := a.contentHash, metadata := a.metadata, updated_at := now }
    ({ st with docs := st.docs ++ [newDoc], nextDocId := st.nextDocId + 1 },
     st.nextDocId)

/-- upsertDocument from db/repository.ts as a two-statement run.  Each
db.execute call commits separately; failSecond injects a storage failure of
the second statement, after which the state committed by the first statement
remains visible.  The returned id is present only on success. -/
def upsertDocumentRun (st : Store) (a : UpsertDocArgs) (now : Nat)
    (failSecond : Bool) : Store × Option Nat :=
  let st1 := deleteChunksFor st a
  if failSecond then (st1, none)
  else
    let (st2, i) := upsertDocRow st1 a now
    (st2, some i)

/-! ## Embedding cache (cache/embedding-cache.ts) -/

/-- A cache entry: the embedding and its insertion timestamp. -/
structure CacheEntry where
  embedding : List ℚ
  timestamp : Nat
deriving DecidableEq, Repr

/-- The LRU cache state: the insertion-ordered map (head is the
least-recently-used end) and the hit and miss counters. -/
structure CacheState where
  entries : List (Str × CacheEntry)
  maxSize : Nat
  ttlMs : Nat
  hits : Nat
  misses : Nat
deriving DecidableEq, Repr

/-- A fresh cache with the given configuration. -/
def mkCache (maxSize ttlMs : Nat) : CacheState :=
  { entries := [], maxSize := maxSize, ttlMs := ttlMs, hits := 0, misses := 0 }

/-- normalizeKey from embedding-cache.ts: lowercase, then trim. -/
def normalizeKey (query : Str) : Str := jsTrim (query.map Char.toLower)

/-- Lookup in the insertion-ordered map. -/
def lookupEntry (key : Str) : List (Str × CacheEntry) → Option CacheEntry
  | [] => none
  | (k, e) :: t => if k = key then some e else lookupEntry key t

/-- JavaScript Map.prototype.delete. -/
def deleteEntry (key : Str) : List (Str × CacheEntry) → List (Str × CacheEntry)
  | [] => []
  | (k, e) :: t => if k = key then t else (k, e) :: deleteEntry key t

/-- JavaScript Map.prototype.set: replace in place, or append at the
most-recently-used end. -/
def setEntry (key : Str) (e : CacheEntry) : List (Str × CacheEntry) → List (Str × CacheEntry)
  | [] => [(key, e)]
  | (k, w) :: t => if k = key then (k, e) :: t else (k, w) :: setEntry key e t

/-- EmbeddingCache.get: miss on an absent key; expired entries are deleted
and count as a miss; a hit moves the entry to the most-recently-used end. -/
def cacheGet (st : CacheState) (now : Nat) (query : Str) :
    Option (List ℚ) × CacheState :=
  let key := normalizeKey query
  match lookupEntry key st.entries with
  | none => (none, { st with misses := st.misses + 1 })
  | some e =>
    if st.ttlMs < now - e.timestamp then
      (none, { st with entries := deleteEntry key st.entries, misses := st.misses + 1 })
    else
      (some e.embedding,
       { st with entries := setEntry key e (deleteEntry key st.entries),
                 hits := st.hits + 1 })

/-- The eviction loop of EmbeddingCache.set: delete from the
least-recently-used end while at capacity.  The source guards the deletion
with a truthiness test on the key, so an empty-string key at the front makes
the while loop spin forever; that divergence is modelled as none. -/
def evictLoop (maxSize : Nat) : List (Str × CacheEntry) → Option (List (Str × CacheEntry))
  | [] => some []
  | (k, e) :: t =>
    if t.length + 1 < maxSize then some ((k, e) :: t)
    else if k.isEmpty then none
    else evictLoop maxSize t

/-- EmbeddingCache.set: evict until below capacity, then insert with the
current timestamp. -/
def cacheSet (st : CacheState) (now : Nat) (query : Str) (embedding : List ℚ) :
    Option CacheState :=
  let key := normalizeKey query
  match evictLoop st.maxSize st.entries with
  | none => none
  | some entries =>
    some { st with entries := setEntry key { embedding := embedding, timestamp := now } entries }

/-- EmbeddingCache.has: no counter changes; an expired entry is deleted. -/
def cacheHas (st : CacheState) (now : Nat) (query : Str) : Bool × CacheState :=
  let key := normalizeKey query
  match lookupEntry key st.entries with
  | none => (false, st)
  | some e =>
    if st.ttlMs < now - e.timestamp then
      (false, { st with entries := deleteEntry key st.entries })
    else (true, st)

/-- EmbeddingCache.prune: delete every expired entry, returning the count. -/
def cachePrune (st : CacheState) (now : Nat) : Nat × CacheState :=
  let keep := st.entries.filter (fun p => !(st.ttlMs < now - p.2.timestamp))
  (st.entries.length - keep.length, { st with entries := keep })

/-- EmbeddingCache.clear: drop all entries and reset both counters. -/
def cacheClear (st : CacheState) : CacheState :=
  { st with entries := [], hits := 0, misses := 0 }

/-- EmbeddingCache.getHitRate: zero without requests, otherwise the hit
fraction times one hundred (the source reports a percentage). -/
def getHitRate (st : CacheState) : ℚ :=
  if st.hits + st.misses = 0 then 0
  else ((st.hits : ℚ) / ((st.hits : ℚ) + (st.misses : ℚ))) * 100

/-- One cache operation with its wall-clock time. -/
inductive CacheOp where
  | get (now : Nat) (query : Str)
  | set (now : Nat) (query : Str) (embedding : List ℚ)
  | has (now : Nat) (query : Str)
  | prune (now : Nat)
  | clear
deriving DecidableEq, Repr

/-- Apply one operation; only set can diverge. -/
def applyOp (st : CacheState) : CacheOp → Option CacheState
  | .get now q => some (cacheGet st now q).2
  | .set now q e => cacheSet st now q e
  | .has now q => some (cacheHas st now q).2
  | .prune now => some (cachePrune st now).2
  | .clear => some (cacheClear st)

/-- Run a finite operation sequence from a state. -/
def runOpsFrom (st : CacheState) : List CacheOp → Option CacheState
  | [] => some st
  | op :: t => (applyOp st op).bind (fun st2 => runOpsFrom st2 t)

/-- Run a finite operation sequence on a fresh cache. -/
def runOps (maxSize ttlMs : Nat) (ops : List CacheOp) : Option CacheState :=
  runOpsFrom (mkCache maxSize ttlMs) ops

/-- The number of get operations in a sequence. -/
def countGets (ops : List CacheOp) : Nat :=
  (ops.filter (fun op => match op with | .get _ _ => true | _ => false)).length

/-- Whether a sequence contains no clear operation. -/
def clearFree (ops : List CacheOp) : Bool :=
  ops.all (fun op => match op with | .clear => false | _ => true)

/-! ## Tool service: full-content search (services/tool-service.ts) -/

/-- A document entry of the tool response. -/
structure OutDoc where
  title : Str
  url : Str
  content : Str
deriving DecidableEq, Repr

/-- The unique-document-id loop of searchSourceDocsFullContent: collect the
first occurrence of each document id in relevance order, stopping as soon as
the list reaches the limit. -/
def uniqueDocIdsGo (limit : Nat) : List ChunkSearchResult → List Nat → List Nat
  | [], acc => acc
  | c :: t, acc =>
    if c.document_id ∈ acc then uniqueDocIdsGo limit t acc
    else
      let acc2 := acc ++ [c.document_id]
      if limit ≤ acc2.length then acc2 else uniqueDocIdsGo limit t acc2

/-- The unique document ids of a chunk result list. -/
def uniqueDocIds (chunks : List ChunkSearchResult) (limit : Nat) : List Nat :=
  uniqueDocIdsGo limit chunks []

/-- getDocumentsByIds combined with the docOrder sort of the caller: under
the primary-key uniqueness of document ids, the SQL lookup followed by the
stable sort on the position in the id list returns, for each id in order,
the unique row carrying it. -/
def getDocumentsByIds (table : List DocumentRow) (ids : List Nat) : List DocumentRow :=
  ids.filterMap (fun i => table.find? (fun d => d.id == i))

/-- The clean-and-truncate loop of searchSourceDocsFullContent, carrying the
running character total; returns the response documents, the total and the
truncation flag. -/
def buildDocs (maxTotalChars : Nat) : List DocumentRow → Nat → List OutDoc × Nat × Bool
  | [], total => ([], total, false)
  | doc :: rest, total =>
    if maxTotalChars ≤ total then ([], total, true)
    else
      let cleaned := cleanMarkdown doc.content
      let remaining := maxTotalChars - total
      let content := if remaining < cleaned.length then truncateContent cleaned remaining
        else cleaned
      let total2 := total + content.length
      if maxTotalChars ≤ total2 then
        ([{ title := doc.title, url := doc.url, content := content }], total2, true)
      else
        let res := buildDocs maxTotalChars rest total2
        ({ title := doc.title, url := doc.url, content := content } :: res.1,
         res.2.1, res.2.2)

/-- searchSourceDocsFullContent from tool-service.ts, as a function of the
two storage legs of the hybrid search (each fetched with limit times three),
the documents table, the limit and the total-character budget. -/
def searchSourceDocsFullContent (vectorResults ftsResults : List ChunkSearchResult)
    (table : List DocumentRow) (limit maxTotalChars : Nat) :
    List OutDoc × Nat × Bool :=
  let chunkResults := searchChunksHybrid vectorResults ftsResults (limit * 3)
  let ids := uniqueDocIds chunkResults limit
  let documents := getDocumentsByIds table ids
  buildDocs maxTotalChars documents 0

/-! ## Ingestion dry run (services/ingestion-service.ts) -/

/-- A fetched document as produced by the fetchers. -/
structure FetchedDocument where
  title : Str
  url : Str
  path : Option Str
  content : Str
deriving DecidableEq, Repr

/-- A per-document dry-run summary row. -/
structure DryRunDoc where
  title : Str
  url : Str
  path : Option Str
  contentLength : Nat
  estimatedChunks : Nat
deriving DecidableEq, Repr

/-- The dry-run result of ingestSource. -/
structure DryRunResult where
  source : Str
  documentCount : Nat
  documents : List DryRunDoc
  totalContentSize : Nat
  estimatedTotalChunks : Nat
deriving DecidableEq, Repr

/-- performDryRun from ingestion-service.ts: per-document lengths, an
estimated chunk count of at least one per document at a thousand characters
per chunk (Math.ceil modelled exactly on naturals), and the two totals. -/
def performDryRun (sourceName : Str) (documents : List FetchedDocument) : DryRunResult :=
  let docDetails := documents.map (fun doc =>
    { title := doc.title, url := doc.url, path := doc.path,
      contentLength := doc.content.length,
      estimatedChunks := max 1 ((doc.content.length + 999) / 1000) : DryRunDoc })
  { source := sourceName,
    documentCount := documents.length,
    documents := docDetails,
    totalContentSize := docDetails.foldl (fun sum d => sum + d.contentLength) 0,
    estimatedTotalChunks := docDetails.foldl (fun sum d => sum + d.estimatedChunks) 0 }

/-- The dry-run path of ingestSource: with dryRun set, the cached-url lookup
is skipped, the fetch is external, and the method returns performDryRun
before any repository write, leaving the store untouched. -/
def ingestSourceDry (st : Store) (sourceName : Str)
    (documents : List FetchedDocument) : DryRunResult × Store :=
  (performDryRun sourceName documents, st)

/-! ## Auxiliary definitions used by the statements of the claims -/

/-- Lookup in the fusion bucket list. -/
def lookupBucket (key : Str) : List (Str × ChunkSearchResult × ℚ) →
    Option (ChunkSearchResult × ℚ)
  | [] => none
  | (k, v) :: t => if k = key then some v else lookupBucket key t

/-- The vector-pass bucket finally stored for a key: the last vector result
carrying the key together with its addend, since Map.set overwrites. -/
def vecFindQ (i : Nat) : List ChunkSearchResult → Str → Option (ChunkSearchResult × ℚ)
  | [], _ => none
  | r :: t, key =>
    match vecFindQ (i + 1) t key with
    | some x => some x
    | none => if rrfKey r = key then some (r, rrfq i) else none

/-- The FTS-pass bucket created for a key absent from the vector pass: the
first FTS result carrying the key, with the total addend sum of the key. -/
def ftsFirstQ (i : Nat) : List ChunkSearchResult → Str → Option (ChunkSearchResult × ℚ)
  | [], _ => none
  | r :: t, key =>
    if rrfKey r = key then some (r, rrfq i + ftsScoreOf (i + 1) t key)
    else ftsFirstQ (i + 1) t key

/-- The combined score the code's fusion assigns to a key: the addend of the
last vector result carrying the key (Map.set overwrites, so earlier vector
ranks with the same key do not contribute) plus the sum of the addends of
every FTS result carrying the key. -/
def rrfScoreOf (vec fts : List ChunkSearchResult) (key : Str) : ℚ :=
  (match vecFindQ 0 vec key with
   | some x => x.2
   | none => 0) + ftsScoreOf 0 fts key

/-- Scenario chunk A of the RRF seed of claim C3: top vector hit, second
lexical hit. -/
def seedA : ChunkSearchResult :=
  { document_id := 1, chunk_content := ("ca").toList, title := ("A").toList,
    url := ("a").toList, path := none, source_name := ("src").toList, distance := 0 }

/-- Scenario chunk B of the RRF seed: top lexical hit only. -/
def seedB : ChunkSearchResult :=
  { document_id := 2, chunk_content := ("cb").toList, title := ("B").toList,
    url := ("b").toList, path := none, source_name := ("src").toList, distance := 0 }

/-- Scenario chunk C of the RRF seed: second vector hit only. -/
def seedC : ChunkSearchResult :=
  { document_id := 3, chunk_content := ("cc").toList, title := ("C").toList,
    url := ("c").toList, path := none, source_name := ("src").toList, distance := 0 }

/-- The operation sequence of the hit-rate scenario: one set, one hit, one
miss. -/
def c5ops : List CacheOp :=
  [CacheOp.set 1 (("q").toList) [1], CacheOp.get 2 (("q").toList),
   CacheOp.get 3 (("r").toList)]

/-- The cache state after the hit-rate scenario. -/
def c5st : CacheState :=
  { entries := [((("q").toList), { embedding := [1], timestamp := 1 })],
    maxSize := 10, ttlMs := 600000, hits := 1, misses := 1 }

/-- The LRU scenario of claim C6: set q1, set q2, set q3, get q1, set q4 on
a three-entry cache with a ten-minute time-to-live. -/
def c6state : Option CacheState :=
  ((((cacheSet (mkCache 3 600000) 1 (("q1").toList) [1]).bind
      (fun c => cacheSet c 2 (("q2").toList) [2])).bind
      (fun c => cacheSet c 3 (("q3").toList) [3])).map
      (fun c => (cacheGet c 4 (("q1").toList)).2)).bind
      (fun c => cacheSet c 5 (("q4").toList) [4])

/-- The four probes of the LRU scenario, performed in sequence. -/
def c6probe (c : CacheState) :
    Option (List ℚ) × Option (List ℚ) × Option (List ℚ) × Option (List ℚ) :=
  let p2 := cacheGet c 6 (("q2").toList)
  let p1 := cacheGet p2.2 7 (("q1").toList)
  let p3 := cacheGet p1.2 8 (("q3").toList)
  let p4 := cacheGet p3.2 9 (("q4").toList)
  (p2.1, p1.1, p3.1, p4.1)

/-- The single hybrid-search row of the budget counterexample of claim C1. -/
def c1vec : List ChunkSearchResult :=
  [{ document_id := 1, chunk_content := ("x").toList, title := ("T").toList,
     url := ("u").toList, path := none, source_name := ("s").toList, distance := 0 }]

/-- The documents table of the budget counterexample: one ten-character
document without spaces, so truncation falls through to the hard cut. -/
def c1table : List DocumentRow :=
  [{ id := 1, source_id := 1, url := ("u").toList, title := ("T").toList,
     path := none, content := ("0123456789").toList, content_hash := ("h").toList,
     metadata := none, updated_at := 0 }]

/-- The store of the atomicity counterexample of claim C2: one document with
one chunk. -/
def c2store : Store :=
  let d : DocumentRow :=
    { id := 1, source_id := 1, url := ("u").toList, title := ("T").toList,
      path := none, content := ("old").toList, content_hash := ("h1").toList,
      metadata := none, updated_at := 0 }
  let c : ChunkRow :=
    { document_id := 1, chunk_index := 0, content := ("c").toList,
      embedding := [], token_count := 0 }
  { docs := [d], chunks := [c], nextDocId := 2 }

/-- The conflicting upsert of the atomicity counterexample. -/
def c2args : UpsertDocArgs :=
  { sourceId := 1, url := ("u").toList, title := ("T").toList, path := none,
    content := ("new").toList, contentHash := ("h2").toList, metadata := none }

/-! ## Lemmas about truncation -/

theorem lastIdxOfSub_le (pat s : Str) (h : 0 ≤ lastIdxOfSub pat s) :
    (lastIdxOfSub pat s).toNat + pat.length ≤ s.length := by
  rcases hl : ((List.range (s.length + 1)).filter
      (fun i => List.isPrefixOf pat (s.drop i))).getLast? with - | i
  · rw [lastIdxOfSub, hl] at h; simp at h
  · rw [lastIdxOfSub, hl]
    have hmem : i ∈ (List.range (s.length + 1)).filter
        (fun i => List.isPrefixOf pat (s.drop i)) := List.mem_of_getLast?_eq_some hl
    obtain ⟨hrange, hpre⟩ := List.mem_filter.mp hmem
    have hi : i < s.length + 1 := List.mem_range.mp hrange
    have hp : pat <+: s.drop i := by
      simpa using hpre
    have hlen := hp.length_le
    rw [List.length_drop] at hlen
    simp only [Int.toNat_ofNat]
    omega

theorem sentenceMatchAt_length (u : Str) (h : sentenceMatchAt u = true) :
    3 ≤ u.length := by
  cases u with
  | nil => simp [sentenceMatchAt] at h
  | cons c rest =>
    have hsplit : (rest.takeWhile jsWs).length + (rest.dropWhile jsWs).length
        = rest.length := by
      rw [← List.length_append, List.takeWhile_append_dropWhile]
    simp only [sentenceMatchAt] at h
    obtain ⟨-, h2⟩ := (Bool.and_eq_true _ _).mp h
    rcases hrd : rest.dropWhile jsWs with - | ⟨d, r2⟩
    · rw [hrd] at h2; simp at h2
    · rw [hrd] at h2 hsplit
      obtain ⟨hw, -⟩ := (Bool.and_eq_true _ _).mp h2
      have h1 : 1 ≤ (rest.takeWhile jsWs).length := by
        rcases hrt : rest.takeWhile jsWs with - | ⟨a, b⟩
        · rw [hrt] at hw; simp at hw
        · simp
      simp only [List.length_cons] at hsplit ⊢
      omega

theorem sentenceSearch_le (s : Str) (h : 0 ≤ sentenceSearch s) :
    (sentenceSearch s).toNat + 3 ≤ s.length := by
  rcases hf : (List.range s.length).find? (fun i => sentenceMatchAt (s.drop i))
    with - | i
  · rw [sentenceSearch, hf] at h; simp at h
  · rw [sentenceSearch, hf]
    have hi : i < s.length := List.mem_range.mp (List.mem_of_find?_eq_some hf)
    have hmatch : sentenceMatchAt (s.drop i) = true := by
      simpa using List.find?_some hf
    have h3 := sentenceMatchAt_length _ hmatch
    rw [List.length_drop] at h3
    simp only [Int.toNat_ofNat]
    omega

theorem truncMarker_length : truncMarker.length = 22 := by decide

/-- The result of a forced truncation is at most the budget plus the
twenty-seven characters of the longest appended suffix. -/
theorem truncateContent_length_le (content : Str) (m : Nat)
    (h : m < content.length) :
    (truncateContent content m).length ≤ m + 27 := by
  unfold truncateContent
  rw [if_neg (by omega)]
  have hlt : (content.take m).length = m := by
    rw [List.length_take]; omega
  dsimp only
  split
  · rename_i hpara
    have hnn : 0 ≤ lastIdxOfSub ['\n', '\n'] (content.take m) := by
      have h0 : (0:ℚ) ≤ (m:ℚ) * (7/10) := by positivity
      exact_mod_cast le_of_lt (lt_of_le_of_lt h0 hpara)
    have hb := lastIdxOfSub_le ['\n', '\n'] (content.take m) hnn
    simp only [List.length_append, List.length_take, List.length_cons,
      truncMarker_length] at *
    omega
  · split
    · rename_i hsent
      have hnn : 0 ≤ sentenceSearch (content.take m) := by
        have h0 : (0:ℚ) ≤ (m:ℚ) * (8/10) := by positivity
        exact_mod_cast le_of_lt (lt_of_le_of_lt h0 hsent)
      have hb := sentenceSearch_le (content.take m) hnn
      simp only [List.length_append, List.length_take, List.length_cons,
        truncMarker_length] at *
      omega
    · split
      · rename_i hsp
        have hnn : 0 ≤ lastIdxOfSub [' '] (content.take m) := by
          have h0 : (0:ℚ) ≤ (m:ℚ) * (9/10) := by positivity
          exact_mod_cast le_of_lt (lt_of_le_of_lt h0 hsp)
        have hb := lastIdxOfSub_le [' '] (content.take m) hnn
        simp only [List.length_append, List.length_take, List.length_cons,
          truncMarker_length] at *
        omega
      · simp only [List.length_append, List.length_take, List.length_cons,
          truncMarker_length]
        omega

/-- Every forced truncation ends with the truncation marker. -/
theorem truncMarker_suffix (content : Str) (m : Nat) (h : m < content.length) :
    truncMarker <:+ truncateContent content m := by
  have hsuf : ∀ (x pre : Str), truncMarker <:+ x ++ (pre ++ truncMarker) :=
    fun x pre => (List.suffix_append pre truncMarker).trans (List.suffix_append x _)
  unfold truncateContent
  rw [if_neg (by omega)]
  dsimp only
  split
  · exact hsuf _ ['\n', '\n']
  · split
    · exact hsuf _ ['\n', '\n']
    · split
      · exact hsuf _ ['.', '.', '.', '\n', '\n']
      · exact hsuf _ ['.', '.', '.', '\n', '\n']

/-! ## Claim theorems (first group) -/

/-- Claim C10: for content longer than the budget, truncateContent returns a
string that ends with the marker and has length at most maxLength plus
twenty-seven; content within the budget is returned unchanged. -/
theorem c10_truncate_bounds (content : Str) (maxLength : Nat) :
    (maxLength < content.length →
      truncMarker <:+ truncateContent content maxLength ∧
      (truncateContent content maxLength).length ≤ maxLength + 27) ∧
    (content.length ≤ maxLength → truncateContent content maxLength = content) := by
  constructor
  · intro h
    exact ⟨truncMarker_suffix content maxLength h,
           truncateContent_length_le content maxLength h⟩
  · intro h
    unfold truncateContent
    rw [if_pos h]

/-- Witness for claim C10 at a ten-character spaceless string and budget
five, and at a two-character string within budget nine. -/
theorem c10_truncate_bounds_witness :
    (truncMarker <:+ truncateContent (("0123456789").toList) 5 ∧
     (truncateContent (("0123456789").toList) 5).length ≤ 5 + 27) ∧
    truncateContent (("ab").toList) 9 = ("ab").toList :=
  ⟨(c10_truncate_bounds (("0123456789").toList) 5).1 (by decide),
   (c10_truncate_bounds (("ab").toList) 9).2 (by decide)⟩

/-- Claim C6: on a cache with max_size three and a long time-to-live, after
set q1, set q2, set q3, get q1, set q4, a get of q2 misses while gets of q1,
q3 and q4 hit; the surviving keys are q3, q1, q4 in least-to-most recently
used order. -/
theorem c6_lru_scenario :
    c6state.map c6probe = some (none, some [1], some [3], some [4]) ∧
    c6state.map (fun c => c.entries.map Prod.fst) =
      some [("q3").toList, ("q1").toList, ("q4").toList] := by
  decide

/-- Claim C7 counterexample: a dry run over one empty document reports one
estimated chunk, while the claimed sum of ceilings of length over a thousand
is zero. -/
theorem c7_dry_run_counterexample :
    (performDryRun (("demo").toList)
        [{ title := ("t").toList, url := ("u").toList, path := none,
           content := [] }]).estimatedTotalChunks ≠
      (([{ title := ("t").toList, url := ("u").toList, path := none,
           content := [] }] : List FetchedDocument).map
        (fun d => (d.content.length + 999) / 1000)).sum := by
  decide

/-- Claim C7 (amended): a dry run leaves the store unchanged and reports the
document count, the total content size, and an estimated chunk total of the
sum over documents of the larger of one and the ceiling of length over a
thousand. -/
theorem c7_amended_dry_run (st : Store) (name : Str)
    (docs : List FetchedDocument) :
    (ingestSourceDry st name docs).2 = st ∧
    (performDryRun name docs).documentCount = docs.length ∧
    (performDryRun name docs).totalContentSize =
      (docs.map (fun d => d.content.length)).sum ∧
    (performDryRun name docs).estimatedTotalChunks =
      (docs.map (fun d => max 1 ((d.content.length + 999) / 1000))).sum := by
  refine ⟨rfl, rfl, ?_, ?_⟩ <;>
    simp only [performDryRun, List.foldl_map, List.sum_eq_foldl]

/-- Claim C2 counterexample: when the document statement of upsertDocument
fails, the already-committed chunk deletion remains visible, so the store is
not left unchanged. -/
theorem c2_atomicity_counterexample :
    (upsertDocumentRun c2store c2args 5 true).1 ≠ c2store := by
  decide

/-- Claim C3 counterexample: with the vector leg returning the same chunk at
ranks zero and one and the lexical leg returning one other chunk, the code's
fusion (whose Map.set overwrites the vector bucket) orders B before A, while
the claimed pair-keyed accumulation of every result orders A before B. -/
theorem c3_rrf_pair_key_counterexample :
    searchChunksHybrid [seedA, seedA] [seedB] 5 ≠
      rrfFuseSpec [seedA, seedA] [seedB] 5 := by
  norm_num +decide [searchChunksHybrid, rrfFuseSpec, vecPass, ftsPass, setBucket,
    addBucket, rrfKey, rrfq, seedA, seedB, List.insertionSort, List.orderedInsert,
    byScoreDesc, List.enum]

/-! ## Lemmas about the embedding cache -/

theorem cacheGet_counters (st : CacheState) (now : Nat) (q : Str) :
    (cacheGet st now q).2.hits + (cacheGet st now q).2.misses
      = st.hits + st.misses + 1 := by
  unfold cacheGet
  rcases hl : lookupEntry (normalizeKey q) st.entries with - | e <;>
    simp only [hl]
  all_goals try omega
  all_goals split <;> dsimp only <;> omega

theorem cacheSet_counters (st : CacheState) (now : Nat) (q : Str)
    (emb : List ℚ) (st2 : CacheState) (h : cacheSet st now q emb = some st2) :
    st2.hits = st.hits ∧ st2.misses = st.misses := by
  unfold cacheSet at h
  rcases he : evictLoop st.maxSize st.entries with - | l <;> rw [he] at h
  · simp at h
  · simp only [Option.some.injEq] at h
    rw [← h]
    exact ⟨rfl, rfl⟩

theorem cacheHas_counters (st : CacheState) (now : Nat) (q : Str) :
    (cacheHas st now q).2.hits = st.hits ∧ (cacheHas st now q).2.misses = st.misses := by
  unfold cacheHas
  rcases hl : lookupEntry (normalizeKey q) st.entries with - | e <;>
    simp only [hl]
  · exact ⟨trivial, trivial⟩
  · split <;> exact ⟨rfl, rfl⟩

theorem cachePrune_counters (st : CacheState) (now : Nat) :
    (cachePrune st now).2.hits = st.hits ∧ (cachePrune st now).2.misses = st.misses :=
  ⟨rfl, rfl⟩

theorem runOpsFrom_counters (ops : List CacheOp) (st0 st : CacheState)
    (h : runOpsFrom st0 ops = some st) (hc : clearFree ops = true) :
    st.hits + st.misses = st0.hits + st0.misses + countGets ops := by
  induction ops generalizing st0 with
  | nil =>
    simp only [runOpsFrom, Option.some.injEq] at h
    subst h
    simp [countGets]
  | cons op t ih =>
    rw [runOpsFrom] at h
    rcases ha : applyOp st0 op with - | st1 <;> rw [ha] at h
    · simp at h
    · rw [Option.some_bind] at h
      have hct : clearFree t = true := by
        have hc2 := hc
        rw [clearFree, List.all_cons] at hc2
        exact ((Bool.and_eq_true _ _).mp hc2).2
      have hrec := ih st1 h hct
      cases op with
      | get now q =>
        have hinj : st1 = (cacheGet st0 now q).2 := by
          simpa [applyOp] using ha.symm
        have hcnt := cacheGet_counters st0 now q
        rw [hinj] at hrec
        simp [countGets, List.filter_cons] at hrec ⊢
        omega
      | set now q emb =>
        have hcnt := cacheSet_counters st0 now q emb st1 (by simpa [applyOp] using ha)
        simp [countGets, List.filter_cons] at hrec ⊢
        omega
      | has now q =>
        have hinj : st1 = (cacheHas st0 now q).2 := by
          simpa [applyOp] using ha.symm
        have hcnt := cacheHas_counters st0 now q
        rw [hinj] at hrec
        simp [countGets, List.filter_cons] at hrec ⊢
        omega
      | prune now =>
        have hinj : st1 = (cachePrune st0 now).2 := by
          simpa [applyOp] using ha.symm
        rw [hinj] at hrec
        simp [countGets, List.filter_cons, cachePrune] at hrec ⊢
        omega
      | clear =>
        simp [clearFree] at hc

/-! ## Claim theorems: hit rate -/

/-- Claim C5 counterexample: after one cache hit and one cache miss the
reported hit rate is fifty, not the claimed hits divided by requests, which
is one half. -/
theorem c5_hit_rate_counterexample :
    (runOps 10 600000 c5ops).map getHitRate = some 50 ∧
    (runOps 10 600000 c5ops).map
        (fun st => (st.hits : ℚ) / ((st.hits : ℚ) + (st.misses : ℚ))) =
      some (1 / 2) ∧
    (50 : ℚ) ≠ 1 / 2 := by
  have h : runOps 10 600000 c5ops = some c5st := by decide
  refine ⟨?_, ?_, by norm_num⟩ <;> rw [h]
  · show some (getHitRate c5st) = some 50
    norm_num [getHitRate, c5st]
  · show some ((c5st.hits : ℚ) / ((c5st.hits : ℚ) + (c5st.misses : ℚ))) = some (1 / 2)
    norm_num [c5st]

/-- Claim C5 (amended): over any clear-free operation sequence on a fresh
cache, the number of hits plus misses equals the number of get operations,
and the reported hit rate is zero without gets and otherwise one hundred
times hits over gets (a percentage, not the bare fraction of the claim). -/
theorem c5_amended_hit_rate (maxSize ttlMs : Nat) (ops : List CacheOp)
    (st : CacheState) (hrun : runOps maxSize ttlMs ops = some st)
    (hclear : clearFree ops = true) :
    st.hits + st.misses = countGets ops ∧
    getHitRate st = (if countGets ops = 0 then 0
      else ((st.hits : ℚ) / (countGets ops : ℚ)) * 100) := by
  have h0 := runOpsFrom_counters ops (mkCache maxSize ttlMs) st hrun hclear
  simp only [mkCache, Nat.zero_add] at h0
  refine ⟨h0, ?_⟩
  unfold getHitRate
  rw [← Nat.cast_add, h0]

/-- Witness for claim C5 at the set-hit-miss scenario. -/
theorem c5_amended_hit_rate_witness :
    c5st.hits + c5st.misses = countGets c5ops ∧
    getHitRate c5st = (if countGets c5ops = 0 then 0
      else ((c5st.hits : ℚ) / (countGets c5ops : ℚ)) * 100) :=
  c5_amended_hit_rate 10 600000 c5ops c5st (by decide) (by decide)

/-! ## Lemmas about cache capacity -/

theorem evictLoop_some_lt (m : Nat) (l l' : List (Str × CacheEntry))
    (hm : 1 ≤ m) (h : evictLoop m l = some l') : l'.length < m := by
  induction l with
  | nil =>
    simp only [evictLoop, Option.some.injEq] at h
    rw [← h]
    simpa using hm
  | cons p t ih =>
    rw [evictLoop] at h
    rcases p with ⟨k, e⟩
    split at h
    · rename_i hlt
      rw [Option.some.injEq] at h
      rw [← h]
      simpa using hlt
    · split at h
      · simp at h
      · exact ih h

theorem setEntry_length (k : Str) (e : CacheEntry) (l : List (Str × CacheEntry)) :
    (setEntry k e l).length ≤ l.length + 1 := by
  induction l with
  | nil => simp [setEntry]
  | cons p t ih =>
    rw [setEntry]
    split <;> simp only [List.length_cons] <;> omega

theorem deleteEntry_length_le (k : Str) (l : List (Str × CacheEntry)) :
    (deleteEntry k l).length ≤ l.length := by
  induction l with
  | nil => simp [deleteEntry]
  | cons p t ih =>
    rw [deleteEntry]
    split <;> simp only [List.length_cons] <;> omega

theorem deleteEntry_length_of_found (k : Str) (l : List (Str × CacheEntry))
    (e : CacheEntry) (h : lookupEntry k l = some e) :
    (deleteEntry k l).length + 1 = l.length := by
  induction l with
  | nil => simp [lookupEntry] at h
  | cons p t ih =>
    rw [lookupEntry] at h
    rw [deleteEntry]
    split
    · simp
    · rename_i hne
      rw [if_neg hne] at h
      simp only [List.length_cons]
      rw [← ih h]

theorem cacheGet_entries_le (st : CacheState) (now : Nat) (q : Str) :
    (cacheGet st now q).2.entries.length ≤ st.entries.length := by
  unfold cacheGet
  rcases hl : lookupEntry (normalizeKey q) st.entries with - | e <;>
    simp only [hl]
  · exact le_refl _
  · split
    · exact deleteEntry_length_le _ _
    · dsimp only
      calc (setEntry (normalizeKey q) e (deleteEntry (normalizeKey q) st.entries)).length
          ≤ (deleteEntry (normalizeKey q) st.entries).length + 1 := setEntry_length _ _ _
        _ = st.entries.length := deleteEntry_length_of_found _ _ _ hl

theorem cacheSet_entries_le (st : CacheState) (now : Nat) (q : Str)
    (emb : List ℚ) (st2 : CacheState) (hm : 1 ≤ st.maxSize)
    (h : cacheSet st now q emb = some st2) :
    st2.entries.length ≤ st.maxSize := by
  unfold cacheSet at h
  rcases he : evictLoop st.maxSize st.entries with - | l <;> rw [he] at h
  · simp at h
  · rw [Option.some.injEq] at h
    have hl := evictLoop_some_lt st.maxSize st.entries l hm he
    rw [← h]
    calc (setEntry (normalizeKey q) { embedding := emb, timestamp := now } l).length
        ≤ l.length + 1 := setEntry_length _ _ _
      _ ≤ st.maxSize := by omega

theorem applyOp_maxSize (st st2 : CacheState) (op : CacheOp)
    (h : applyOp st op = some st2) : st2.maxSize = st.maxSize := by
  cases op with
  | get now q =>
    have : st2 = (cacheGet st now q).2 := by simpa [applyOp] using h.symm
    rw [this]
    unfold cacheGet
    rcases hl : lookupEntry (normalizeKey q) st.entries with - | e <;>
      simp only [hl]
    all_goals split <;> rfl
  | set now q emb =>
    unfold applyOp cacheSet at h
    rcases he : evictLoop st.maxSize st.entries with - | l <;> rw [he] at h
    · simp at h
    · rw [Option.some.injEq] at h
      rw [← h]
  | has now q =>
    have : st2 = (cacheHas st now q).2 := by simpa [applyOp] using h.symm
    rw [this]
    unfold cacheHas
    rcases hl : lookupEntry (normalizeKey q) st.entries with - | e <;>
      simp only [hl]
    all_goals split <;> rfl
  | prune now =>
    have : st2 = (cachePrune st now).2 := by simpa [applyOp] using h.symm
    rw [this]; rfl
  | clear =>
    have : st2 = cacheClear st := by simpa [applyOp] using h.symm
    rw [this]; rfl

theorem applyOp_size (st st2 : CacheState) (op : CacheOp)
    (hm : 1 ≤ st.maxSize) (hs : st.entries.length ≤ st.maxSize)
    (h : applyOp st op = some st2) : st2.entries.length ≤ st.maxSize := by
  cases op with
  | get now q =>
    have : st2 = (cacheGet st now q).2 := by simpa [applyOp] using h.symm
    rw [this]
    exact le_trans (cacheGet_entries_le st now q) hs
  | set now q emb =>
    exact cacheSet_entries_le st now q emb st2 hm (by simpa [applyOp] using h)
  | has now q =>
    have : st2 = (cacheHas st now q).2 := by simpa [applyOp] using h.symm
    rw [this]
    unfold cacheHas
    rcases hl : lookupEntry (normalizeKey q) st.entries with - | e <;>
      simp only [hl]
    all_goals try exact hs
    all_goals split
    · exact le_trans (deleteEntry_length_le _ _) hs
    · exact hs
  | prune now =>
    have : st2 = (cachePrune st now).2 := by simpa [applyOp] using h.symm
    rw [this]
    exact le_trans (List.length_filter_le _ _) hs
  | clear =>
    have : st2 = cacheClear st := by simpa [applyOp] using h.symm
    rw [this]
    simp [cacheClear]

theorem runOpsFrom_size (ops : List CacheOp) (st0 st : CacheState)
    (h : runOpsFrom st0 ops = some st) (hm : 1 ≤ st0.maxSize)
    (hs : st0.entries.length ≤ st0.maxSize) :
    st.entries.length ≤ st.maxSize ∧ st.maxSize = st0.maxSize := by
  induction ops generalizing st0 with
  | nil =>
    simp only [runOpsFrom, Option.some.injEq] at h
    subst h
    exact ⟨hs, rfl⟩
  | cons op t ih =>
    rw [runOpsFrom] at h
    rcases ha : applyOp st0 op with - | st1 <;> rw [ha] at h
    · simp at h
    · rw [Option.some_bind] at h
      have hmax := applyOp_maxSize st0 st1 op ha
      have hsize := applyOp_size st0 st1 op hm hs ha
      have := ih st1 h (by omega) (by omega)
      omega

/-! ## Claim theorems: cache capacity invariant -/

/-- Claim C9: for a cache with max_size at least one, the entry count never
exceeds max_size after any completed finite sequence of get, set, has, prune
and clear operations. -/
theorem c9_size_invariant (maxSize ttlMs : Nat) (ops : List CacheOp)
    (st : CacheState) (hm : 1 ≤ maxSize)
    (hrun : runOps maxSize ttlMs ops = some st) :
    st.entries.length ≤ maxSize := by
  have := runOpsFrom_size ops (mkCache maxSize ttlMs) st hrun
    (by simpa [mkCache]) (by simp [mkCache])
  simp only [mkCache] at this
  omega

/-- Witness for claim C9 on a size-one cache and a one-set sequence. -/
theorem c9_size_invariant_witness :
    ({ entries := [((("q").toList), { embedding := [1], timestamp := 1 })],
       maxSize := 1, ttlMs := 1000, hits := 0, misses := 0 } : CacheState).entries.length ≤ 1 :=
  c9_size_invariant 1 1000 [CacheOp.set 1 (("q").toList) [1]] _ (by decide) (by decide)

/-! ## Lemmas about upsertDocument -/

theorem upsertDocRow_chunks (st : Store) (a : UpsertDocArgs) (now : Nat) :
    (upsertDocRow st a now).1.chunks = st.chunks := by
  unfold upsertDocRow
  split <;> rfl

theorem upsertDocumentRun_chunks (st : Store) (a : UpsertDocArgs) (now : Nat)
    (failSecond : Bool) :
    (upsertDocumentRun st a now failSecond).1.chunks
      = (deleteChunksFor st a).chunks := by
  unfold upsertDocumentRun
  cases failSecond
  · dsimp only
    exact upsertDocRow_chunks _ a now
  · rfl

theorem deleteChunksFor_spec (st : Store) (a : UpsertDocArgs)
    (c : ChunkRow) (hc : c ∈ (deleteChunksFor st a).chunks) :
    c ∈ st.chunks ∧ ∀ d ∈ st.docs, docMatches a d = true → c.document_id ≠ d.id := by
  unfold deleteChunksFor at hc
  obtain ⟨hmem, hcond⟩ := List.mem_filter.mp hc
  refine ⟨hmem, ?_⟩
  intro d hd hmatch heq
  simp only [Bool.not_eq_eq_eq_not, Bool.not_true, List.any_eq_false] at hcond
  have := hcond d hd
  rw [hmatch, heq] at this
  simp at this

theorem docMatches_update (a : UpsertDocArgs) (now : Nat) (d : DocumentRow) :
    docMatches a (if docMatches a d then
      { d with title := a.title, path := a.path, content := a.content,
               content_hash := a.contentHash, metadata := a.metadata,
               updated_at := now }
    else d) = docMatches a d := by
  split <;> rfl

/-! ## Claim theorems: upsertDocument -/

/-- Claim C2 (amended): upsertDocument deletes every chunk of the
(source_id, url) document before the document statement runs, so no such
chunk survives in any outcome; but the two statements commit separately: a
failure of the second statement leaves the document table unchanged while
the chunk deletion stays visible, and only a successful run leaves a
matching document row carrying the new content and hash. -/
theorem c2_amended_delete_before_upsert (st : Store) (a : UpsertDocArgs)
    (now : Nat) (failSecond : Bool) :
    (∀ c ∈ ((upsertDocumentRun st a now failSecond).1).chunks,
       c ∈ st.chunks ∧ ∀ d ∈ st.docs, docMatches a d = true → c.document_id ≠ d.id) ∧
    (failSecond = true → ((upsertDocumentRun st a now failSecond).1).docs = st.docs) ∧
    (failSecond = false →
       ((((upsertDocumentRun st a now failSecond).1).docs.find? (docMatches a)).isSome = true ∧
        ∀ d ∈ ((upsertDocumentRun st a now failSecond).1).docs, docMatches a d = true →
          d.content = a.content ∧ d.content_hash = a.contentHash)) := by
  refine ⟨?_, ?_, ?_⟩
  · intro c hc
    rw [upsertDocumentRun_chunks] at hc
    exact deleteChunksFor_spec st a c hc
  · intro hf
    subst hf
    rfl
  · intro hf
    subst hf
    have main : (((upsertDocRow (deleteChunksFor st a) a now).1.docs.find?
          (docMatches a)).isSome = true ∧
        ∀ d ∈ (upsertDocRow (deleteChunksFor st a) a now).1.docs,
          docMatches a d = true →
            d.content = a.content ∧ d.content_hash = a.contentHash) := by
      unfold upsertDocRow
      dsimp only [deleteChunksFor]
      split
      · rename_i hany
        obtain ⟨d0, hd0, hd0m⟩ := List.any_eq_true.mp hany
        constructor
        · rw [List.find?_isSome]
          refine ⟨_, List.mem_map_of_mem _ hd0, ?_⟩
          rw [docMatches_update a now d0]
          exact hd0m
        · intro d hd hdm
          obtain ⟨d1, hd1, hd1e⟩ := List.mem_map.mp hd
          rw [← hd1e] at hdm
          rw [docMatches_update a now d1] at hdm
          rw [← hd1e]
          rw [if_pos hdm]
          exact ⟨rfl, rfl⟩
      · rename_i hany
        have hnone : ∀ d ∈ st.docs, docMatches a d = false := by
          intro d hd
          by_contra hne
          exact hany (List.any_eq_true.mpr ⟨d, hd, by
            cases hb : docMatches a d
            · exact absurd hb hne
            · rfl⟩)
        constructor
        · rw [List.find?_isSome]
          refine ⟨_, List.mem_append_right _ (List.mem_singleton_self _), ?_⟩
          simp [docMatches]
        · intro d hd hdm
          rcases List.mem_append.mp hd with hdl | hdr
          · rw [hnone d hdl] at hdm
            simp at hdm
          · rw [List.mem_singleton] at hdr
            subst hdr
            exact ⟨rfl, rfl⟩
    exact main

/-- Witness for claim C2: a failing run on the concrete store keeps the
document table unchanged. -/
theorem c2_amended_delete_before_upsert_witness :
    (upsertDocumentRun c2store c2args 5 true).1.docs = c2store.docs :=
  (c2_amended_delete_before_upsert c2store c2args 5 true).2.1 rfl

/-! ## Lemmas about reciprocal rank fusion -/

theorem lookupBucket_setBucket (k k2 : Str) (v : ChunkSearchResult × ℚ)
    (m : List (Str × ChunkSearchResult × ℚ)) :
    lookupBucket k2 (setBucket k v m)
      = if k2 = k then some v else lookupBucket k2 m := by
  induction m with
  | nil =>
    by_cases h : k2 = k
    · subst h; simp [setBucket, lookupBucket]
    · simp [setBucket, lookupBucket, h, Ne.symm h]
  | cons p t ih =>
    rcases p with ⟨k0, w⟩
    by_cases h0 : k0 = k
    · subst h0
      by_cases h2 : k2 = k0
      · subst h2; simp [setBucket, lookupBucket]
      · simp [setBucket, lookupBucket, h2, Ne.symm h2]
    · by_cases h2 : k2 = k0
      · subst h2
        simp [setBucket, lookupBucket, h0, Ne.symm h0]
      · simp [setBucket, lookupBucket, h0, h2, Ne.symm h2, ih]

theorem lookupBucket_addBucket (k k2 : Str) (r : ChunkSearchResult) (sc : ℚ)
    (m : List (Str × ChunkSearchResult × ℚ)) :
    lookupBucket k2 (addBucket k r sc m)
      = if k2 = k then
          (match lookupBucket k m with
           | some (w, s) => some (w, s + sc)
           | none => some (r, sc))
        else lookupBucket k2 m := by
  induction m with
  | nil =>
    by_cases h : k2 = k
    · subst h; simp [addBucket, lookupBucket]
    · simp [addBucket, lookupBucket, h, Ne.symm h]
  | cons p t ih =>
    rcases p with ⟨k0, w, s⟩
    by_cases h0 : k0 = k
    · subst h0
      by_cases h2 : k2 = k0
      · subst h2; simp [addBucket, lookupBucket]
      · simp [addBucket, lookupBucket, h2, Ne.symm h2]
    · by_cases h2 : k2 = k0
      · subst h2
        simp [addBucket, lookupBucket, h0, Ne.symm h0]
      · simp [addBucket, lookupBucket, h0, h2, Ne.symm h2, ih]

theorem lookupBucket_vecPass (vec : List ChunkSearchResult) (i : Nat)
    (m : List (Str × ChunkSearchResult × ℚ)) (key : Str) :
    lookupBucket key (vecPass i vec m)
      = match vecFindQ i vec key with
        | some x => some x
        | none => lookupBucket key m := by
  induction vec generalizing i m with
  | nil => simp [vecPass, vecFindQ]
  | cons r t ih =>
    rw [vecPass]
    rw [ih]
    simp only [vecFindQ]
    cases hf : vecFindQ (i + 1) t key with
    | some x => rfl
    | none =>
      rw [lookupBucket_setBucket]
      by_cases hk : rrfKey r = key
      · subst hk; simp
      · simp [hk, Ne.symm hk]

theorem lookupBucket_ftsPass (fts : List ChunkSearchResult) (i : Nat)
    (m : List (Str × ChunkSearchResult × ℚ)) (key : Str) :
    lookupBucket key (ftsPass i fts m)
      = match lookupBucket key m with
        | some (w, s) => some (w, s + ftsScoreOf i fts key)
        | none => ftsFirstQ i fts key := by
  induction fts generalizing i m with
  | nil =>
    cases h : lookupBucket key m with
    | none => simp [ftsPass, ftsFirstQ, h]
    | some p => rcases p with ⟨w, s⟩; simp [ftsPass, ftsScoreOf, h]
  | cons r t ih =>
    rw [ftsPass, ih, lookupBucket_addBucket]
    simp only [ftsScoreOf, ftsFirstQ]
    by_cases hk : rrfKey r = key
    · subst hk
      simp only [if_pos rfl]
      cases h : lookupBucket (rrfKey r) m with
      | none => simp
      | some p =>
        rcases p with ⟨w, s⟩
        simp [add_assoc]
    · have hk2 : ¬ key = rrfKey r := fun h => hk h.symm
      simp only [if_neg hk, if_neg hk2]
      cases h : lookupBucket key m with
      | none => rfl
      | some p =>
        rcases p with ⟨w, s⟩
        simp

theorem ftsFirstQ_score (fts : List ChunkSearchResult) (i : Nat) (key : Str)
    (w : ChunkSearchResult) (s : ℚ) (h : ftsFirstQ i fts key = some (w, s)) :
    s = ftsScoreOf i fts key := by
  induction fts generalizing i with
  | nil => simp [ftsFirstQ] at h
  | cons r t ih =>
    rw [ftsFirstQ] at h
    rw [ftsScoreOf]
    by_cases hk : rrfKey r = key
    · rw [if_pos hk] at h
      rw [if_pos hk]
      simp only [Option.some.injEq, Prod.mk.injEq] at h
      rw [← h.2]
    · rw [if_neg hk] at h
      rw [if_neg hk, zero_add]
      exact ih (i + 1) h

theorem keys_setBucket (k k2 : Str) (v : ChunkSearchResult × ℚ)
    (m : List (Str × ChunkSearchResult × ℚ))
    (h : k2 ∈ (setBucket k v m).map Prod.fst) :
    k2 ∈ m.map Prod.fst ∨ k2 = k := by
  induction m with
  | nil => simpa [setBucket] using h
  | cons p t ih =>
    rcases p with ⟨k0, w⟩
    rw [setBucket] at h
    split at h
    · rename_i h0
      subst h0
      simp only [List.map_cons, List.mem_cons] at h ⊢
      tauto
    · simp only [List.map_cons, List.mem_cons] at h ⊢
      rcases h with h1 | h2
      · tauto
      · rcases ih h2 with h3 | h4 <;> tauto

theorem nodup_setBucket (k : Str) (v : ChunkSearchResult × ℚ)
    (m : List (Str × ChunkSearchResult × ℚ))
    (h : (m.map Prod.fst).Nodup) : ((setBucket k v m).map Prod.fst).Nodup := by
  induction m with
  | nil => simp [setBucket]
  | cons p t ih =>
    rcases p with ⟨k0, w⟩
    rw [setBucket]
    split
    · exact h
    · rename_i h0
      simp only [List.map_cons, List.nodup_cons] at h ⊢
      refine ⟨?_, ih h.2⟩
      intro hmem
      rcases keys_setBucket k k0 v t hmem with h1 | h2
      · exact h.1 h1
      · exact h0 h2

theorem keys_addBucket (k k2 : Str) (r : ChunkSearchResult) (sc : ℚ)
    (m : List (Str × ChunkSearchResult × ℚ))
    (h : k2 ∈ (addBucket k r sc m).map Prod.fst) :
    k2 ∈ m.map Prod.fst ∨ k2 = k := by
  induction m with
  | nil => simpa [addBucket] using h
  | cons p t ih =>
    rcases p with ⟨k0, w, s⟩
    rw [addBucket] at h
    split at h
    · rename_i h0
      simp only [List.map_cons, List.mem_cons] at h ⊢
      tauto
    · simp only [List.map_cons, List.mem_cons] at h ⊢
      rcases h with h1 | h2
      · tauto
      · rcases ih h2 with h3 | h4 <;> tauto

theorem nodup_addBucket (k : Str) (r : ChunkSearchResult) (sc : ℚ)
    (m : List (Str × ChunkSearchResult × ℚ))
    (h : (m.map Prod.fst).Nodup) : ((addBucket k r sc m).map Prod.fst).Nodup := by
  induction m with
  | nil => simp [addBucket]
  | cons p t ih =>
    rcases p with ⟨k0, w, s⟩
    rw [addBucket]
    split
    · exact h
    · rename_i h0
      simp only [List.map_cons, List.nodup_cons] at h ⊢
      refine ⟨?_, ih h.2⟩
      intro hmem
      rcases keys_addBucket k k0 r sc t hmem with h1 | h2
      · exact h.1 h1
      · exact h0 h2

theorem nodup_vecPass (vec : List ChunkSearchResult) (i : Nat)
    (m : List (Str × ChunkSearchResult × ℚ))
    (h : (m.map Prod.fst).Nodup) : ((vecPass i vec m).map Prod.fst).Nodup := by
  induction vec generalizing i m with
  | nil => exact h
  | cons r t ih =>
    rw [vecPass]
    exact ih (i + 1) _ (nodup_setBucket _ _ m h)

theorem nodup_ftsPass (fts : List ChunkSearchResult) (i : Nat)
    (m : List (Str × ChunkSearchResult × ℚ))
    (h : (m.map Prod.fst).Nodup) : ((ftsPass i fts m).map Prod.fst).Nodup := by
  induction fts generalizing i m with
  | nil => exact h
  | cons r t ih =>
    rw [ftsPass]
    exact ih (i + 1) _ (nodup_addBucket _ _ _ m h)

theorem keysOk_setBucket (k : Str) (v : ChunkSearchResult × ℚ)
    (m : List (Str × ChunkSearchResult × ℚ)) (hk : k = rrfKey v.1)
    (h : ∀ p ∈ m, p.1 = rrfKey p.2.1) :
    ∀ p ∈ setBucket k v m, p.1 = rrfKey p.2.1 := by
  induction m with
  | nil =>
    intro p hp
    rw [setBucket] at hp
    rcases List.mem_singleton.mp hp with h2
    rw [h2, hk]
  | cons q t ih =>
    rcases q with ⟨k0, w⟩
    intro p hp
    rw [setBucket] at hp
    split at hp
    · rename_i h0
      rcases List.mem_cons.mp hp with h1 | h2
      · rw [h1]
        dsimp only
        rw [h0, hk]
      · exact h p (List.mem_cons_of_mem _ h2)
    · rcases List.mem_cons.mp hp with h1 | h2
      · rw [h1]
        exact h _ (List.mem_cons_self _ _)
      · exact ih (fun q hq => h q (List.mem_cons_of_mem _ hq)) p h2

theorem keysOk_addBucket (k : Str) (r : ChunkSearchResult) (sc : ℚ)
    (m : List (Str × ChunkSearchResult × ℚ)) (hk : k = rrfKey r)
    (h : ∀ p ∈ m, p.1 = rrfKey p.2.1) :
    ∀ p ∈ addBucket k r sc m, p.1 = rrfKey p.2.1 := by
  induction m with
  | nil =>
    intro p hp
    rw [addBucket] at hp
    rcases List.mem_singleton.mp hp with h2
    rw [h2, hk]
  | cons q t ih =>
    rcases q with ⟨k0, w, s⟩
    intro p hp
    rw [addBucket] at hp
    split at hp
    · rename_i h0
      rcases List.mem_cons.mp hp with h1 | h2
      · rw [h1]
        exact h (k0, w, s) (List.mem_cons_self _ _)
      · exact h p (List.mem_cons_of_mem _ h2)
    · rcases List.mem_cons.mp hp with h1 | h2
      · rw [h1]
        exact h _ (List.mem_cons_self _ _)
      · exact ih (fun q hq => h q (List.mem_cons_of_mem _ hq)) p h2

theorem keysOk_vecPass (vec : List ChunkSearchResult) (i : Nat)
    (m : List (Str × ChunkSearchResult × ℚ))
    (h : ∀ p ∈ m, p.1 = rrfKey p.2.1) :
    ∀ p ∈ vecPass i vec m, p.1 = rrfKey p.2.1 := by
  induction vec generalizing i m with
  | nil => exact h
  | cons r t ih =>
    rw [vecPass]
    exact ih (i + 1) _ (keysOk_setBucket _ _ m rfl h)

theorem keysOk_ftsPass (fts : List ChunkSearchResult) (i : Nat)
    (m : List (Str × ChunkSearchResult × ℚ))
    (h : ∀ p ∈ m, p.1 = rrfKey p.2.1) :
    ∀ p ∈ ftsPass i fts m, p.1 = rrfKey p.2.1 := by
  induction fts generalizing i m with
  | nil => exact h
  | cons r t ih =>
    rw [ftsPass]
    exact ih (i + 1) _ (keysOk_addBucket _ _ _ m rfl h)

theorem lookupBucket_of_mem (B : List (Str × ChunkSearchResult × ℚ))
    (p : Str × ChunkSearchResult × ℚ) (hnd : (B.map Prod.fst).Nodup)
    (hp : p ∈ B) : lookupBucket p.1 B = some p.2 := by
  induction B with
  | nil => simp at hp
  | cons q t ih =>
    rcases q with ⟨k0, w⟩
    simp only [List.map_cons, List.nodup_cons] at hnd
    rcases List.mem_cons.mp hp with h1 | h2
    · subst h1
      rw [lookupBucket, if_pos rfl]
    · rw [lookupBucket]
      have hne : ¬ (k0 = p.1) := by
        intro he
        exact hnd.1 (he ▸ List.mem_map_of_mem Prod.fst h2)
      rw [if_neg hne]
      exact ih hnd.2 h2

theorem rrfKey_distance_update (x : ChunkSearchResult) (d : ℚ) :
    rrfKey { x with distance := d } = rrfKey x := rfl

theorem bucket_score (vec fts : List ChunkSearchResult)
    (kv : Str × ChunkSearchResult × ℚ)
    (hkv : kv ∈ ftsPass 0 fts (vecPass 0 vec [])) :
    kv.2.2 = rrfScoreOf vec fts kv.1 := by
  have hnodup : ((ftsPass 0 fts (vecPass 0 vec [])).map Prod.fst).Nodup :=
    nodup_ftsPass fts 0 _ (nodup_vecPass vec 0 [] (by simp))
  have hlk := lookupBucket_of_mem _ kv hnodup hkv
  rw [lookupBucket_ftsPass, lookupBucket_vecPass] at hlk
  rcases hv : vecFindQ 0 vec kv.1 with - | x
  · rw [hv] at hlk
    dsimp only [lookupBucket] at hlk
    have := ftsFirstQ_score fts 0 kv.1 kv.2.1 kv.2.2 (by rw [hlk])
    rw [rrfScoreOf, hv, zero_add]
    exact this
  · rw [hv] at hlk
    rcases x with ⟨w0, s0⟩
    dsimp only at hlk
    rw [Option.some.injEq] at hlk
    rw [rrfScoreOf, hv]
    rw [← hlk]

/-- Claim C3 (amended): when the lexical leg is nonempty, the hybrid search
fuses with reciprocal rank fusion keyed by the string of url, a colon, and
the first hundred chunk characters; every lexical result at rank r adds
1 / (60 + r + 1) to its bucket while the vector pass overwrites, so only the
last vector result with a given key contributes; the output is ordered by
ascending reported distance (descending combined score), each distance is one
minus the bucket's combined score, and the output is truncated to the limit.
On the seed where the vector leg ranks A then C and the lexical leg ranks B
then A, the fused order is A, B, C. -/
theorem c3_amended_rrf_fusion :
    (∀ (vec fts : List ChunkSearchResult) (limit : Nat), fts ≠ [] →
      ((searchChunksHybrid vec fts limit).length ≤ limit ∧
       List.Pairwise (fun a b : ChunkSearchResult => a.distance ≤ b.distance)
         (searchChunksHybrid vec fts limit) ∧
       ∀ r ∈ searchChunksHybrid vec fts limit,
         r.distance = 1 - rrfScoreOf vec fts (rrfKey r))) ∧
    searchChunksHybrid [seedA, seedC] [seedB, seedA] 5 =
      [{ seedA with distance := 1 - (1 / 61 + 1 / 62) },
       { seedB with distance := 1 - 1 / 61 },
       { seedC with distance := 1 - 1 / 62 }] := by
  constructor
  · intro vec fts limit hne
    have hfts : ¬ (fts.length = 0) := by
      simpa [List.length_eq_zero] using hne
    unfold searchChunksHybrid
    rw [if_neg hfts]
    dsimp only
    refine ⟨?_, ?_, ?_⟩
    · rw [List.length_map]
      exact List.length_take_le _ _
    · have hs : List.Pairwise byScoreDesc
          (List.insertionSort byScoreDesc (ftsPass 0 fts (vecPass 0 vec []))) :=
        List.sorted_insertionSort byScoreDesc _
      have ht := hs.sublist (List.take_sublist limit _)
      refine (List.pairwise_map).mpr ?_
      exact ht.imp (fun h => sub_le_sub_left h 1)
    · intro r hr
      obtain ⟨kv, hkv, hre⟩ := List.mem_map.mp hr
      have hkv2 : kv ∈ ftsPass 0 fts (vecPass 0 vec []) :=
        (List.perm_insertionSort byScoreDesc _).subset
          (List.take_subset _ _ hkv)
      have hkeys : kv.1 = rrfKey kv.2.1 :=
        keysOk_ftsPass fts 0 _ (keysOk_vecPass vec 0 [] (by simp)) kv hkv2
      have hscore := bucket_score vec fts kv hkv2
      rw [← hre, rrfKey_distance_update]
      show 1 - kv.2.2 = 1 - rrfScoreOf vec fts (rrfKey kv.2.1)
      rw [hscore, hkeys]
  · norm_num +decide [searchChunksHybrid, vecPass, ftsPass, setBucket,
      addBucket, rrfKey, rrfq, seedA, seedB, seedC, List.insertionSort,
      List.orderedInsert, byScoreDesc]

/-- Witness for claim C3 at the seed legs. -/
theorem c3_amended_rrf_fusion_witness :
    (searchChunksHybrid [seedA, seedC] [seedB, seedA] 5).length ≤ 5 :=
  (c3_amended_rrf_fusion.1 [seedA, seedC] [seedB, seedA] 5 (by decide)).1

/-! ## Lemmas about the full-content search -/

theorem searchChunksHybrid_length_le (vec fts : List ChunkSearchResult)
    (limit : Nat) : (searchChunksHybrid vec fts limit).length ≤ limit := by
  unfold searchChunksHybrid
  split
  · exact List.length_take_le _ _
  · dsimp only
    rw [List.length_map]
    exact List.length_take_le _ _

theorem uniqueDocIdsGo_length (limit : Nat) (l : List ChunkSearchResult)
    (acc : List Nat) (h2 : acc.length < limit) :
    (uniqueDocIdsGo limit l acc).length ≤ limit := by
  induction l generalizing acc with
  | nil => rw [uniqueDocIdsGo]; omega
  | cons c t ih =>
    rw [uniqueDocIdsGo]
    split
    · exact ih acc h2
    · dsimp only
      split
      · rename_i hle
        simp only [List.length_append, List.length_singleton]
        omega
      · rename_i hgt
        apply ih
        simp only [List.length_append, List.length_singleton] at hgt ⊢
        omega

theorem buildDocs_length_le (maxC : Nat) (docs : List DocumentRow) (total : Nat) :
    (buildDocs maxC docs total).1.length ≤ docs.length := by
  induction docs generalizing total with
  | nil => simp [buildDocs]
  | cons doc rest ih =>
    rw [buildDocs]
    split
    · simp
    · dsimp only
      split
      all_goals split
      · simp
      · simp only [List.length_cons]
        exact Nat.succ_le_succ (ih _)
      · simp
      · simp only [List.length_cons]
        exact Nat.succ_le_succ (ih _)

theorem buildDocs_total_le (maxC : Nat) (docs : List DocumentRow) (total : Nat)
    (h : total ≤ maxC) : (buildDocs maxC docs total).2.1 ≤ maxC + 27 := by
  induction docs generalizing total with
  | nil =>
    rw [buildDocs]
    dsimp only
    omega
  | cons doc rest ih =>
    rw [buildDocs]
    split
    · dsimp only; omega
    · rename_i hlt
      dsimp only
      by_cases hc : maxC - total < (cleanMarkdown doc.content).length
      · rw [if_pos hc]
        have hb := truncateContent_length_le (cleanMarkdown doc.content)
          (maxC - total) hc
        split
        · dsimp only; omega
        · rename_i h2
          exact ih _ (by omega)
      · rw [if_neg hc]
        split
        · dsimp only; omega
        · rename_i h2
          exact ih _ (by omega)

/-! ## Claim theorems: full-content search budget -/

/-- Claim C1 counterexample: with one result chunk, a ten-character document
without spaces and a budget of five characters, the returned total is the
thirty-two characters of the hard-cut truncation, exceeding the budget. -/
theorem c1_total_chars_counterexample :
    ¬ ((searchSourceDocsFullContent c1vec [] c1table 1 5).2.1 ≤ 5) := by
  have hclean : cleanMarkdown (("0123456789").toList) = ("0123456789").toList := by
    decide
  have hlp : lastIdxOfSub ['\n', '\n'] (List.take 5 (("0123456789").toList)) = -1 := by
    decide
  have hss : sentenceSearch (List.take 5 (("0123456789").toList)) = -1 := by
    decide
  have hsp : lastIdxOfSub [' '] (List.take 5 (("0123456789").toList)) = -1 := by
    decide
  have htr : (truncateContent (("0123456789").toList) 5).length = 32 := by
    unfold truncateContent
    rw [if_neg (by decide)]
    dsimp only
    rw [hlp, hss, hsp]
    rw [if_neg (by norm_num), if_neg (by norm_num), if_neg (by norm_num)]
    decide
  have h1 : getDocumentsByIds c1table
      (uniqueDocIds (searchChunksHybrid c1vec [] (1 * 3)) 1) = c1table := by
    decide
  have hbuild : (buildDocs 5 c1table 0).2.1 = 32 := by
    unfold c1table
    rw [buildDocs]
    rw [if_neg (by decide)]
    dsimp only
    rw [hclean]
    rw [if_pos (show 5 - 0 < (("0123456789").toList).length by decide)]
    simp only [Nat.sub_zero]
    rw [htr]
    rw [if_pos (by decide)]
  have heq : (searchSourceDocsFullContent c1vec [] c1table 1 5).2.1
      = (buildDocs 5 c1table 0).2.1 := by
    unfold searchSourceDocsFullContent
    dsimp only
    rw [h1]
  rw [heq, hbuild]
  decide

/-- Claim C1 (amended): for every pair of search legs, documents table,
limit and budget, the full-content search returns at most limit documents
and a total character count of at most the budget plus twenty-seven, the
worst-case overshoot of the truncation helper's appended suffix. -/
theorem c1_amended_budget_bounds (vec fts : List ChunkSearchResult)
    (table : List DocumentRow) (limit maxTotalChars : Nat) :
    (searchSourceDocsFullContent vec fts table limit maxTotalChars).1.length ≤ limit ∧
    (searchSourceDocsFullContent vec fts table limit maxTotalChars).2.1
      ≤ maxTotalChars + 27 := by
  unfold searchSourceDocsFullContent
  dsimp only
  constructor
  · rcases Nat.eq_zero_or_pos limit with h0 | hpos
    · subst h0
      have hlen : (searchChunksHybrid vec fts (0 * 3)).length = 0 :=
        Nat.le_zero.mp (by simpa using searchChunksHybrid_length_le vec fts 0)
      rw [List.length_eq_zero.mp hlen]
      simp [uniqueDocIds, uniqueDocIdsGo, getDocumentsByIds, buildDocs]
    · calc (buildDocs maxTotalChars
            (getDocumentsByIds table
              (uniqueDocIds (searchChunksHybrid vec fts (limit * 3)) limit)) 0).1.length
          ≤ (getDocumentsByIds table
              (uniqueDocIds (searchChunksHybrid vec fts (limit * 3)) limit)).length :=
            buildDocs_length_le _ _ _
        _ ≤ (uniqueDocIds (searchChunksHybrid vec fts (limit * 3)) limit).length :=
            List.length_filterMap_le _ _
        _ ≤ limit := uniqueDocIdsGo_length limit _ [] (by simpa using hpos)
  · exact buildDocs_total_le _ _ 0 (Nat.zero_le _)

/-- All characters of the list satisfying the separator predicate makes
wordsBy produce no terms. -/
theorem wordsBy_nil_of_all (p : Char → Bool) (b : Str)
    (hb : ∀ c ∈ b, p c = true) : wordsBy p b = [] := by
  induction b with
  | nil => rw [wordsBy]
  | cons c t ih =>
    rw [wordsBy, if_pos (hb c (List.mem_cons_self c t))]
    exact ih (fun x hx => hb x (List.mem_cons_of_mem c hx))

/-- takeWhile of the kept-character predicate ignores an appended
all-separator suffix. -/
theorem takeWhile_append_allP (p : Char → Bool) (t b : Str)
    (hb : ∀ c ∈ b, p c = true) :
    (t ++ b).takeWhile (fun x => !p x) = t.takeWhile (fun x => !p x) := by
  induction t with
  | nil =>
    cases b with
    | nil => rfl
    | cons x b2 =>
      rw [List.nil_append, List.takeWhile_cons]
      simp [hb x (List.mem_cons_self x b2)]
  | cons x t2 ih =>
    rw [List.cons_append, List.takeWhile_cons, List.takeWhile_cons]
    cases hx : p x with
    | false => simp [hx, ih]
    | true => simp [hx]

/-- dropWhile of the kept-character predicate passes an appended
all-separator suffix through. -/
theorem dropWhile_append_allP (p : Char → Bool) (t b : Str)
    (hb : ∀ c ∈ b, p c = true) :
    (t ++ b).dropWhile (fun x => !p x) = t.dropWhile (fun x => !p x) ++ b := by
  induction t with
  | nil =>
    cases b with
    | nil => rfl
    | cons x b2 =>
      rw [List.nil_append, List.dropWhile_cons]
      simp [hb x (List.mem_cons_self x b2)]
  | cons x t2 ih =>
    rw [List.cons_append, List.dropWhile_cons, List.dropWhile_cons]
    cases hx : p x with
    | false => simp [hx, ih]
    | true => simp [hx]

/-- Appending an all-separator suffix does not change the terms found by
wordsBy (length-bounded form for the induction). -/
theorem wordsBy_append_allP_aux (p : Char → Bool) :
    ∀ n (a b : Str), a.length ≤ n → (∀ c ∈ b, p c = true) →
      wordsBy p (a ++ b) = wordsBy p a := by
  intro n
  induction n with
  | zero =>
    intro a b ha hb
    have haz : a = [] := List.eq_nil_of_length_eq_zero (Nat.le_zero.mp ha)
    subst haz
    rw [List.nil_append, wordsBy_nil_of_all p b hb, wordsBy]
  | succ n ih =>
    intro a b ha hb
    cases a with
    | nil =>
      rw [List.nil_append, wordsBy_nil_of_all p b hb, wordsBy]
    | cons c t =>
      have ht : t.length ≤ n := by simpa using ha
      rw [List.cons_append, wordsBy, wordsBy]
      cases hc : p c with
      | true =>
        rw [if_pos rfl, if_pos rfl]
        exact ih t b ht hb
      | false =>
        rw [if_neg (by simp), if_neg (by simp)]
        rw [takeWhile_append_allP p t b hb, dropWhile_append_allP p t b hb]
        have hlen : (t.dropWhile (fun x => !p x)).length ≤ n := by
          have h1 : (t.dropWhile (fun x => !p x)).length ≤ t.length :=
            (List.dropWhile_sublist _).length_le
          omega
        rw [ih (t.dropWhile (fun x => !p x)) b hlen hb]

/-- Appending an all-separator suffix does not change the terms found by
wordsBy. -/
theorem wordsBy_append_allP (p : Char → Bool) (a b : Str)
    (hb : ∀ c ∈ b, p c = true) : wordsBy p (a ++ b) = wordsBy p a :=
  wordsBy_append_allP_aux p a.length a b (Nat.le_refl _) hb

/-- Dropping a leading separator run does not change the terms found by
wordsBy. -/
theorem wordsBy_dropWhile (p : Char → Bool) (s : Str) :
    wordsBy p (s.dropWhile p) = wordsBy p s := by
  induction s with
  | nil => rfl
  | cons c t ih =>
    rw [List.dropWhile_cons]
    cases hc : p c with
    | true =>
      rw [if_pos (by simp [hc]), ih, wordsBy, if_pos hc]
    | false =>
      rw [if_neg (by simp [hc])]

/-- Right-trimming with the separator predicate does not change the terms
found by wordsBy. -/
theorem wordsBy_rtrimP (p : Char → Bool) (s : Str) :
    wordsBy p ((s.reverse.dropWhile p).reverse) = wordsBy p s := by
  have hsplit : s = (s.reverse.dropWhile p).reverse ++
      (s.reverse.takeWhile p).reverse := by
    conv_lhs => rw [← s.reverse_reverse,
      ← List.takeWhile_append_dropWhile (p := p) (l := s.reverse)]
    rw [List.reverse_append]
  conv_rhs => rw [hsplit]
  rw [wordsBy_append_allP p _ _ ?hall]
  intro c hc
  rw [List.mem_reverse] at hc
  exact List.mem_takeWhile_imp hc

/-- The whitespace status of a query character after the special-character
replacement is exactly the combined separator predicate. -/
theorem jsWs_mapSpecial (c : Char) :
    jsWs (if ftsSpecial c then ' ' else c) = termBreak c := by
  unfold termBreak
  cases hf : ftsSpecial c with
  | false => simp [hf]
  | true => rw [if_pos rfl, Bool.or_true]; decide

/-- takeWhile of kept characters commutes with the special-character
replacement map. -/
theorem takeWhile_mapSpecial (t : Str) :
    (t.map (fun c => if ftsSpecial c then ' ' else c)).takeWhile
        (fun x => !jsWs x) =
      t.takeWhile (fun x => ! termBreak x) := by
  induction t with
  | nil => rfl
  | cons x t2 ih =>
    rw [List.map_cons, List.takeWhile_cons, List.takeWhile_cons, jsWs_mapSpecial]
    cases hx : termBreak x with
    | true => simp [hx]
    | false =>
      have hfs : ftsSpecial x = false := by
        have h2 := hx
        unfold termBreak at h2
        exact (Bool.or_eq_false_iff.mp h2).2
      simp [hx, ih, hfs]

/-- dropWhile of kept characters commutes with the special-character
replacement map. -/
theorem dropWhile_mapSpecial (t : Str) :
    (t.map (fun c => if ftsSpecial c then ' ' else c)).dropWhile
        (fun x => !jsWs x) =
      (t.dropWhile (fun x => ! termBreak x)).map
        (fun c => if ftsSpecial c then ' ' else c) := by
  induction t with
  | nil => rfl
  | cons x t2 ih =>
    rw [List.map_cons, List.dropWhile_cons, List.dropWhile_cons, jsWs_mapSpecial]
    cases hx : termBreak x with
    | true => simp [hx]
    | false => simp [hx, ih]

/-- Splitting the mapped query on whitespace equals splitting the original
query on the combined separator predicate (length-bounded form). -/
theorem wordsBy_mapSpecial_aux :
    ∀ n (s : Str), s.length ≤ n →
      wordsBy jsWs (s.map (fun c => if ftsSpecial c then ' ' else c)) =
        wordsBy termBreak s := by
  intro n
  induction n with
  | zero =>
    intro s hs
    have hsz : s = [] := List.eq_nil_of_length_eq_zero (Nat.le_zero.mp hs)
    subst hsz
    simp [wordsBy]
  | succ n ih =>
    intro s hs
    cases s with
    | nil => simp [wordsBy]
    | cons c t =>
      have ht : t.length ≤ n := by simpa using hs
      rw [List.map_cons, wordsBy, wordsBy, jsWs_mapSpecial]
      cases hc : termBreak c with
      | true =>
        rw [if_pos rfl, if_pos rfl]
        exact ih t ht
      | false =>
        have hfs : ftsSpecial c = false := by
          have h2 := hc
          unfold termBreak at h2
          exact (Bool.or_eq_false_iff.mp h2).2
        have hft : ¬(false = true) := by decide
        rw [hfs]
        rw [if_neg hft, if_neg hft, if_neg hft]
        rw [takeWhile_mapSpecial, dropWhile_mapSpecial]
        congr 1
        have hlen : (t.dropWhile (fun x => ! termBreak x)).length ≤ n := by
          have h1 : (t.dropWhile (fun x => ! termBreak x)).length ≤ t.length :=
            (List.dropWhile_sublist _).length_le
          omega
        exact ih (t.dropWhile (fun x => ! termBreak x)) hlen

/-- Splitting the mapped query on whitespace equals splitting the original
query on the combined separator predicate. -/
theorem wordsBy_mapSpecial (s : Str) :
    wordsBy jsWs (s.map (fun c => if ftsSpecial c then ' ' else c)) =
      wordsBy termBreak s :=
  wordsBy_mapSpecial_aux s.length s (Nat.le_refl _)

/-- No term produced by wordsBy is empty (length-bounded form). -/
theorem wordsBy_ne_nil_aux (p : Char → Bool) :
    ∀ n (s : Str), s.length ≤ n → ∀ w ∈ wordsBy p s, w ≠ [] := by
  intro n
  induction n with
  | zero =>
    intro s hs
    have hsz : s = [] := List.eq_nil_of_length_eq_zero (Nat.le_zero.mp hs)
    subst hsz
    intro w hw
    rw [wordsBy] at hw
    simp at hw
  | succ n ih =>
    intro s hs w hw
    cases s with
    | nil =>
      rw [wordsBy] at hw
      simp at hw
    | cons c t =>
      have ht : t.length ≤ n := by simpa using hs
      rw [wordsBy] at hw
      by_cases hc : p c = true
      · rw [if_pos hc] at hw
        exact ih t ht w hw
      · rw [if_neg hc] at hw
        rcases List.mem_cons.mp hw with h | h
        · subst h
          exact List.cons_ne_nil _ _
        · have hlen : (t.dropWhile (fun x => !p x)).length ≤ n := by
            have h1 : (t.dropWhile (fun x => !p x)).length ≤ t.length :=
              (List.dropWhile_sublist _).length_le
            omega
          exact ih (t.dropWhile (fun x => !p x)) hlen w h

/-- No term produced by wordsBy is empty. -/
theorem wordsBy_ne_nil (p : Char → Bool) (s : Str) :
    ∀ w ∈ wordsBy p s, w ≠ [] :=
  wordsBy_ne_nil_aux p s.length s (Nat.le_refl _)

/-- Claim C4: prepareFtsQuery treats the FTS special characters and
whitespace as term separators: it splits the query into the maximal runs
of other characters, returns the empty phrase when there are no terms, and
otherwise joins the terms, each quoted and suffixed with a star, with OR. -/
theorem c4_fts_query_preparation (q : Str) :
    prepareFtsQuery q =
      (if (wordsBy termBreak q).isEmpty then ['"', '"']
       else icalSep (' ' :: 'O' :: 'R' :: [' '])
         ((wordsBy termBreak q).map (fun t => '"' :: t ++ ['"', '*']))) := by
  simp only [prepareFtsQuery, jsTrim, jsRtrim, jsLtrim]
  rw [wordsBy_rtrimP, wordsBy_dropWhile, wordsBy_mapSpecial]
  rw [List.filter_eq_self.mpr ?hne]
  intro w hw
  simpa using wordsBy_ne_nil termBreak q w hw

/-- splitNl never returns an empty list of lines. -/
theorem splitNl_ne_nil (s : Str) : splitNl s ≠ [] := by
  cases s with
  | nil => simp [splitNl]
  | cons c t =>
    rw [splitNl]
    split
    · simp
    · cases h : splitNl t <;> simp

/-- icalNl of a list with at least two elements. -/
theorem icalNl_cons (l : Str) (r : List Str) (hr : r ≠ []) :
    icalNl (l :: r) = l ++ '\n' :: icalNl r := by
  cases r with
  | nil => exact absurd rfl hr
  | cons a b => rfl

/-- Joining the lines of a string restores the string. -/
theorem icalNl_splitNl (s : Str) : icalNl (splitNl s) = s := by
  induction s with
  | nil => rfl
  | cons c t ih =>
    rw [splitNl]
    by_cases hc : c = '\n'
    · rw [if_pos hc, icalNl_cons _ _ (splitNl_ne_nil t), ih, hc]
      rfl
    · rw [if_neg hc]
      cases h : splitNl t with
      | nil => exact absurd h (splitNl_ne_nil t)
      | cons l ls =>
        cases ls with
        | nil =>
          have : icalNl [l] = t := by rw [← h, ih]
          simp only [icalNl] at this ⊢
          rw [this]
        | cons l2 ls2 =>
          rw [icalNl_cons _ _ (by simp), List.cons_append,
            ← icalNl_cons l (l2 :: ls2) (by simp), ← h, ih]

/-- Every line of splitNl is newline-free. -/
theorem splitNl_nlFree (s : Str) : ∀ l ∈ splitNl s, nlFreeLine l = true := by
  induction s with
  | nil =>
    intro l hl
    simp [splitNl] at hl
    simp [hl, nlFreeLine]
  | cons c t ih =>
    intro l hl
    rw [splitNl] at hl
    by_cases hc : c = '\n'
    · rw [if_pos hc] at hl
      rcases List.mem_cons.mp hl with h | h
      · simp [h, nlFreeLine]
      · exact ih l h
    · rw [if_neg hc] at hl
      cases h : splitNl t with
      | nil => exact absurd h (splitNl_ne_nil t)
      | cons x xs =>
        rw [h] at hl
        rcases List.mem_cons.mp hl with h2 | h2
        · subst h2
          have hx : nlFreeLine x = true := ih x (h ▸ List.mem_cons_self x xs)
          simp only [nlFreeLine, List.all_cons, Bool.and_eq_true] at hx ⊢
          exact ⟨by simp [hc], hx⟩
        · exact ih l (h ▸ List.mem_cons_of_mem x h2)

/-- A newline-free string is its own single line. -/
theorem splitNl_nlFree_single (l : Str) (hl : nlFreeLine l = true) :
    splitNl l = [l] := by
  induction l with
  | nil => rfl
  | cons c t ih =>
    simp only [nlFreeLine, List.all_cons, Bool.and_eq_true] at hl
    have hc : ¬(c = '\n') := by
      intro h
      rw [h] at hl
      simp at hl
    rw [splitNl, if_neg hc, ih hl.2]

/-- Splitting after a newline-free first line peels it off. -/
theorem splitNl_append_nl (l : Str) (r : Str) (hl : nlFreeLine l = true) :
    splitNl (l ++ '\n' :: r) = l :: splitNl r := by
  induction l with
  | nil => simp [splitNl]
  | cons c t ih =>
    simp only [nlFreeLine, List.all_cons, Bool.and_eq_true] at hl
    have hc : ¬(c = '\n') := by
      intro h
      rw [h] at hl
      simp at hl
    rw [List.cons_append, splitNl, if_neg hc, ih hl.2]

/-- Splitting a joined line list of newline-free lines restores the list. -/
theorem splitNl_icalNl (ls : List Str) (h0 : ls ≠ [])
    (hnf : ∀ l ∈ ls, nlFreeLine l = true) : splitNl (icalNl ls) = ls := by
  induction ls with
  | nil => exact absurd rfl h0
  | cons l rest ih =>
    cases rest with
    | nil =>
      simp only [icalNl]
      exact splitNl_nlFree_single l (hnf l (List.mem_cons_self _ _))
    | cons l2 rest2 =>
      rw [icalNl_cons _ _ (by simp),
        splitNl_append_nl l _ (hnf l (List.mem_cons_self _ _)),
        ih (by simp) (fun x hx => hnf x (List.mem_cons_of_mem l hx))]

/-- Replicated newlines followed by a newline shift into the count. -/
theorem replicate_nl_cons (k : Nat) (t : Str) :
    List.replicate k '\n' ++ '\n' :: t = List.replicate (k + 1) '\n' ++ t := by
  induction k with
  | zero => rfl
  | succ n ih =>
    simp only [List.replicate_succ, List.cons_append, ih]

/-- collapseAux copies a newline-free block unchanged with no pending
newlines. -/
theorem collapseAux_copy (l : Str) (hl : nlFreeLine l = true) (x : Str) :
    collapseAux 0 (l ++ x) = l ++ collapseAux 0 x := by
  induction l with
  | nil => rfl
  | cons c t ih =>
    simp only [nlFreeLine, List.all_cons, Bool.and_eq_true] at hl
    have hc : ¬(c = '\n') := by
      intro h
      rw [h] at hl
      simp at hl
    rw [List.cons_append, collapseAux, if_neg hc]
    simp only [Nat.zero_min, List.replicate_zero, List.nil_append]
    rw [ih hl.2]
    rfl

/-- collapseAux flushes min k 2 pending newlines before a nonempty
newline-free block. -/
theorem collapseAux_flush (k : Nat) (c : Char) (t : Str)
    (hc : ¬(c = '\n')) (ht : nlFreeLine t = true) (x : Str) :
    collapseAux k ((c :: t) ++ x) =
      List.replicate (min k 2) '\n' ++ (c :: t) ++ collapseAux 0 x := by
  rw [List.cons_append, collapseAux, if_neg hc, collapseAux_copy t ht x]
  simp [List.append_assoc]

/-- A scan accepting from a larger pending count accepts from a smaller
one. -/
theorem nlRunOk_mono (s : Str) : ∀ k k2, k2 ≤ k →
    nlRunOk k s = true → nlRunOk k2 s = true := by
  induction s with
  | nil => intro k k2 _ _; rfl
  | cons c t ih =>
    intro k k2 hle h
    rw [nlRunOk] at h ⊢
    by_cases hc : c = '\n'
    · rw [if_pos hc] at h ⊢
      rcases (Bool.and_eq_true _ _).mp h with ⟨h1, h2⟩
      refine (Bool.and_eq_true _ _).mpr ⟨?_, ih (k + 1) (k2 + 1) (by omega) h2⟩
      have := of_decide_eq_true h1
      exact decide_eq_true (by omega)
    · rw [if_neg hc] at h ⊢
      exact h

/-- The collapsed string never contains three consecutive newlines. -/
theorem nlRunOk_collapseAux (s : Str) : ∀ k, nlRunOk 0 (collapseAux k s) = true := by
  induction s with
  | nil =>
    intro k
    rw [collapseAux]
    have hm : min k 2 ≤ 2 := Nat.min_le_right _ _
    interval_cases h : min k 2 <;> decide
  | cons c t ih =>
    intro k
    rw [collapseAux]
    by_cases hc : c = '\n'
    · rw [if_pos hc]
      exact ih (k + 1)
    · rw [if_neg hc]
      have hm : min k 2 ≤ 2 := Nat.min_le_right _ _
      have htail : nlRunOk 0 (collapseAux 0 t) = true := ih 0
      interval_cases h : min k 2
      · simp only [List.replicate_zero, List.nil_append, nlRunOk, if_neg hc]
        exact htail
      · simp only [List.replicate_succ, List.replicate_zero, List.nil_append,
          List.cons_append, nlRunOk, if_pos rfl, if_neg hc]
        simpa using htail
      · simp only [List.replicate_succ, List.replicate_zero, List.nil_append,
          List.cons_append, nlRunOk, if_pos rfl, if_neg hc]
        simpa using htail

/-- Collapsing is the identity on strings whose newline runs are short,
ledger version with pending newlines. -/
theorem collapseAux_of_nlRunOk (s : Str) : ∀ k, k ≤ 2 →
    nlRunOk k s = true → collapseAux k s = List.replicate k '\n' ++ s := by
  induction s with
  | nil =>
    intro k hk _
    rw [collapseAux]
    rw [Nat.min_eq_left hk]
    simp
  | cons c t ih =>
    intro k hk h
    rw [nlRunOk] at h
    rw [collapseAux]
    by_cases hc : c = '\n'
    · rw [if_pos hc] at h
      rcases (Bool.and_eq_true _ _).mp h with ⟨h1, h2⟩
      have hk1 : k + 1 ≤ 2 := of_decide_eq_true h1
      rw [if_pos hc, ih (k + 1) hk1 h2, ← replicate_nl_cons, hc]
    · rw [if_neg hc] at h
      rw [if_neg hc, Nat.min_eq_left hk, ih 0 (by omega) h]
      simp

/-- Collapsing newline runs is idempotent. -/
theorem collapseNl_idem (s : Str) : collapseNl (collapseNl s) = collapseNl s := by
  unfold collapseNl
  have h := collapseAux_of_nlRunOk (collapseAux 0 s) 0 (by omega)
    (nlRunOk_collapseAux s 0)
  simpa using h

/-- Collapsing keeps the head of a string that starts with a character
other than a newline. -/
theorem collapseNl_head (c : Char) (t : Str) (hc : ¬(c = '\n')) :
    collapseNl (c :: t) = c :: collapseAux 0 t := by
  unfold collapseNl
  rw [collapseAux, if_neg hc]
  rfl

/-- Collapsing keeps the last character when it is not a newline. -/
theorem collapseAux_getLast (s : Str) : ∀ k c, s.getLast? = some c →
    ¬(c = '\n') → (collapseAux k s).getLast? = some c := by
  induction s with
  | nil => intro k c h _; simp at h
  | cons a t ih =>
    intro k c h hc
    rw [collapseAux]
    cases t with
    | nil =>
      have hac : a = c := by simpa using h
      subst hac
      rw [if_neg hc]
      rw [List.getLast?_append]
      simp [collapseAux]
    | cons b t2 =>
      have ht : (b :: t2).getLast? = some c := by
        rw [List.getLast?_cons_cons] at h
        exact h
      by_cases ha : a = '\n'
      · rw [if_pos ha]
        exact ih (k + 1) c ht hc
      · rw [if_neg ha]
        have htail : (collapseAux 0 (b :: t2)).getLast? = some c := ih 0 c ht hc
        have hne : collapseAux 0 (b :: t2) ≠ [] := by
          intro hz
          rw [hz] at htail
          simp at htail
        have hsplit : List.replicate (k ⊓ 2) '\n' ++ a :: collapseAux 0 (b :: t2)
            = (List.replicate (k ⊓ 2) '\n' ++ [a]) ++ collapseAux 0 (b :: t2) := by
          simp
        rw [hsplit, List.getLast?_append, htail]
        rfl

/-- dropWhile over a fully satisfying prefix continues in the suffix. -/
theorem dropWhile_append_of_all {α : Type} (p : α → Bool) (l x : List α)
    (hl : l.all p = true) : (l ++ x).dropWhile p = x.dropWhile p := by
  induction l with
  | nil => rfl
  | cons c t ih =>
    simp only [List.all_cons, Bool.and_eq_true] at hl
    rw [List.cons_append, List.dropWhile_cons, if_pos hl.1, ih hl.2]

/-- dropWhile stops inside a prefix holding a failing element. -/
theorem dropWhile_append_of_not_all {α : Type} (p : α → Bool) (l x : List α)
    (hl : l.all p = false) : (l ++ x).dropWhile p = l.dropWhile p ++ x := by
  induction l with
  | nil => simp at hl
  | cons c t ih =>
    rw [List.cons_append, List.dropWhile_cons, List.dropWhile_cons]
    cases hc : p c with
    | true =>
      simp only [List.all_cons, hc, Bool.true_and] at hl
      simp only [if_pos]
      exact ih hl
    | false => simp

/-- dropWhile of an all-satisfying list is empty. -/
theorem dropWhile_eq_nil_of_all {α : Type} (p : α → Bool) (l : List α)
    (hl : l.all p = true) : l.dropWhile p = [] := by
  have h := dropWhile_append_of_all p l [] hl
  simpa using h

/-- dropWhile is idempotent. -/
theorem dropWhile_idem {α : Type} (p : α → Bool) (l : List α) :
    (l.dropWhile p).dropWhile p = l.dropWhile p := by
  induction l with
  | nil => rfl
  | cons c t ih =>
    rw [List.dropWhile_cons]
    cases hc : p c with
    | true => simp only [if_pos]; exact ih
    | false => simp [List.dropWhile_cons, hc]

/-- The head of a dropWhile result fails the predicate. -/
theorem dropWhile_head_not {α : Type} (p : α → Bool) (l : List α) :
    ∀ c, (l.dropWhile p).head? = some c → p c = false := by
  induction l with
  | nil => intro c h; simp at h
  | cons a t ih =>
    intro c h
    rw [List.dropWhile_cons] at h
    by_cases ha : p a = true
    · rw [if_pos ha] at h
      exact ih c h
    · rw [if_neg ha] at h
      have hac : a = c := by simpa using h
      subst hac
      simpa using ha

/-- Reversal preserves the all predicate. -/
theorem all_reverse (p : Char → Bool) (l : Str) :
    l.reverse.all p = l.all p := by
  simp [List.all_eq_true, List.mem_reverse]

/-- Right trim absorbs an all-whitespace suffix. -/
theorem jsRtrim_append_of_all (a x : Str) (hx : x.all jsWs = true) :
    jsRtrim (a ++ x) = jsRtrim a := by
  unfold jsRtrim
  rw [List.reverse_append, dropWhile_append_of_all jsWs x.reverse a.reverse
    (by rw [all_reverse]; exact hx)]

/-- Right trim of a string whose suffix holds a non-whitespace character
acts only on the suffix. -/
theorem jsRtrim_append_of_not_all (a x : Str) (hx : x.all jsWs = false) :
    jsRtrim (a ++ x) = a ++ jsRtrim x := by
  unfold jsRtrim
  rw [List.reverse_append, dropWhile_append_of_not_all jsWs x.reverse a.reverse
    (by rw [all_reverse]; exact hx), List.reverse_append, List.reverse_reverse]

/-- A split of any string into its right-trimmed part and an
all-whitespace tail. -/
theorem jsRtrim_split (l : Str) : ∃ w, l = jsRtrim l ++ w ∧ w.all jsWs = true := by
  refine ⟨(l.reverse.takeWhile jsWs).reverse, ?_, ?_⟩
  · conv_lhs => rw [← l.reverse_reverse,
      ← List.takeWhile_append_dropWhile (p := jsWs) (l := l.reverse)]
    rw [List.reverse_append]
    rfl
  · rw [all_reverse]
    rw [List.all_eq_true]
    intro c hc
    exact List.mem_takeWhile_imp hc

/-- Trimming ignores an all-whitespace suffix. -/
theorem jsTrim_append_ws (a w : Str) (hw : w.all jsWs = true) :
    jsTrim (a ++ w) = jsTrim a := by
  unfold jsTrim jsLtrim
  cases ha : a.all jsWs with
  | true =>
    rw [dropWhile_append_of_all jsWs a w ha, dropWhile_eq_nil_of_all jsWs w hw,
      dropWhile_eq_nil_of_all jsWs a ha]
  | false =>
    rw [dropWhile_append_of_not_all jsWs a w ha,
      jsRtrim_append_of_all (a.dropWhile jsWs) w hw]

/-- Trimming ignores an all-whitespace prefix. -/
theorem jsTrim_ws_append (a w : Str) (hw : w.all jsWs = true) :
    jsTrim (w ++ a) = jsTrim a := by
  unfold jsTrim jsLtrim
  rw [dropWhile_append_of_all jsWs w a hw]

/-- Left-trimming first does not change the trimmed line. -/
theorem jsTrim_jsLtrim (l : Str) : jsTrim (jsLtrim l) = jsTrim l := by
  unfold jsTrim jsLtrim
  rw [dropWhile_idem]

/-- Right-trimming first does not change the trimmed line. -/
theorem jsTrim_jsRtrim (l : Str) : jsTrim (jsRtrim l) = jsTrim l := by
  rcases jsRtrim_split l with ⟨w, hsplit, hw⟩
  conv_rhs => rw [hsplit]
  rw [jsTrim_append_ws _ _ hw]

/-- A string whose first and last characters are not whitespace is its own
trim. -/
theorem jsTrim_eq_self (s : Str)
    (hh : ∀ c, s.head? = some c → jsWs c = false)
    (hl : ∀ c, s.getLast? = some c → jsWs c = false) : jsTrim s = s := by
  cases s with
  | nil => rfl
  | cons a t =>
    have ha : jsWs a = false := hh a rfl
    unfold jsTrim jsLtrim jsRtrim
    rw [List.dropWhile_cons, if_neg (by simp [ha])]
    cases hrev : (a :: t).reverse with
    | nil => simp at hrev
    | cons d r =>
      have hd : (a :: t).getLast? = some d := by
        rw [← List.head?_reverse, hrev]
        rfl
      have hdw : jsWs d = false := hl d hd
      rw [List.dropWhile_cons, if_neg (by simp [hdw]), ← hrev,
        List.reverse_reverse]

/-- The first character of a trimmed string is not whitespace. -/
theorem jsTrim_head_not_ws (s : Str) :
    ∀ c, (jsTrim s).head? = some c → jsWs c = false := by
  intro c hc
  unfold jsTrim at hc
  have hpre : jsRtrim (jsLtrim s) <+: jsLtrim s := by
    rw [← (jsLtrim s).reverse_reverse, ← List.reverse_suffix]
    unfold jsRtrim
    rw [List.reverse_reverse]
    exact List.dropWhile_suffix jsWs
  rcases hpre with ⟨tail, htail⟩
  have hhead : (jsLtrim s).head? = some c := by
    rw [← htail]
    cases hcase : jsRtrim (jsLtrim s) with
    | nil => rw [hcase] at hc; simp at hc
    | cons x r =>
      rw [hcase] at hc
      have hx : x = c := by simpa using hc
      subst hx
      rfl
  exact dropWhile_head_not jsWs s c hhead

/-- The last character of a trimmed string is not whitespace. -/
theorem jsTrim_getLast_not_ws (s : Str) :
    ∀ c, (jsTrim s).getLast? = some c → jsWs c = false := by
  intro c hc
  unfold jsTrim jsRtrim at hc
  rw [List.getLast?_reverse] at hc
  exact dropWhile_head_not jsWs (jsLtrim s).reverse c hc

/-- Trimming is idempotent. -/
theorem jsTrim_idem (s : Str) : jsTrim (jsTrim s) = jsTrim s :=
  jsTrim_eq_self (jsTrim s) (jsTrim_head_not_ws s) (jsTrim_getLast_not_ws s)

/-- A failing all gives a failing member. -/
theorem all_false_exists {α : Type} (p : α → Bool) (l : List α)
    (h : l.all p = false) : ∃ c ∈ l, p c = false := by
  induction l with
  | nil => simp at h
  | cons a t ih =>
    rw [List.all_cons] at h
    cases ha : p a with
    | false => exact ⟨a, List.mem_cons_self _ _, ha⟩
    | true =>
      rw [ha, Bool.true_and] at h
      rcases ih h with ⟨c, hc, hcp⟩
      exact ⟨c, List.mem_cons_of_mem a hc, hcp⟩

/-- Joining all-whitespace lines yields an all-whitespace string. -/
theorem icalNl_all_ws (ls : List Str) (h : ∀ l ∈ ls, allWsLine l = true) :
    (icalNl ls).all jsWs = true := by
  induction ls with
  | nil => rfl
  | cons l rest ih =>
    cases rest with
    | nil =>
      simp only [icalNl]
      exact h l (List.mem_cons_self _ _)
    | cons l2 rest2 =>
      rw [icalNl_cons _ _ (by simp), List.all_append, List.all_cons]
      refine (Bool.and_eq_true _ _).mpr ⟨h l (List.mem_cons_self _ _), ?_⟩
      refine (Bool.and_eq_true _ _).mpr ⟨by decide, ?_⟩
      exact ih (fun x hx => h x (List.mem_cons_of_mem l hx))

/-- A character of a line occurs in the joined string. -/
theorem mem_icalNl (ls : List Str) (l : Str) (c : Char)
    (hl : l ∈ ls) (hc : c ∈ l) : c ∈ icalNl ls := by
  induction ls with
  | nil => simp at hl
  | cons x rest ih =>
    cases rest with
    | nil =>
      simp only [List.mem_singleton] at hl
      subst hl
      simpa [icalNl] using hc
    | cons l2 rest2 =>
      rw [icalNl_cons _ _ (by simp)]
      rcases List.mem_cons.mp hl with h | h
      · subst h
        exact List.mem_append_left _ hc
      · exact List.mem_append_right _ (List.mem_cons_of_mem _ (ih h))

/-- If some line holds a non-whitespace character, so does the joined
string. -/
theorem icalNl_not_all_ws (ls : List Str)
    (h : ls.all allWsLine = false) : (icalNl ls).all jsWs = false := by
  rcases all_false_exists allWsLine ls h with ⟨l, hl, hlw⟩
  rcases all_false_exists jsWs l hlw with ⟨c, hc, hcw⟩
  cases hres : (icalNl ls).all jsWs with
  | false => rfl
  | true =>
    rw [List.all_eq_true] at hres
    rw [hres c (mem_icalNl ls l c hl hc)] at hcw
    exact absurd hcw (by simp)

/-- ltrimLines of a nonempty list is nonempty. -/
theorem ltrimLines_ne_nil (ls : List Str) (h : ls ≠ []) :
    ltrimLines ls ≠ [] := by
  induction ls with
  | nil => exact absurd rfl h
  | cons l rest ih =>
    cases rest with
    | nil => simp [ltrimLines]
    | cons l2 rest2 =>
      rw [ltrimLines]
      split
      · exact ih (by simp)
      · simp

/-- rtrimLines of a nonempty list is nonempty. -/
theorem rtrimLines_ne_nil (ls : List Str) (h : ls ≠ []) :
    rtrimLines ls ≠ [] := by
  cases ls with
  | nil => exact absurd rfl h
  | cons l rest =>
    rw [rtrimLines]
    split
    · simp
    · simp

/-- Left trim of a joined line list is the join of the line-level left
trim. -/
theorem jsLtrim_icalNl (ls : List Str) (h0 : ls ≠ []) :
    jsLtrim (icalNl ls) = icalNl (ltrimLines ls) := by
  induction ls with
  | nil => exact absurd rfl h0
  | cons l rest ih =>
    cases rest with
    | nil => rfl
    | cons l2 rest2 =>
      rw [icalNl_cons _ _ (by simp), ltrimLines]
      cases hws : allWsLine l with
      | true =>
        rw [if_pos rfl]
        unfold jsLtrim
        rw [dropWhile_append_of_all jsWs l _ hws, List.dropWhile_cons,
          if_pos (by decide)]
        exact ih (by simp)
      | false =>
        rw [if_neg (by simp)]
        unfold jsLtrim
        rw [dropWhile_append_of_not_all jsWs l _ hws,
          icalNl_cons (List.dropWhile jsWs l) (l2 :: rest2) (by simp)]

/-- Right trim of a joined line list is the join of the line-level right
trim. -/
theorem jsRtrim_icalNl (ls : List Str) (h0 : ls ≠ []) :
    jsRtrim (icalNl ls) = icalNl (rtrimLines ls) := by
  induction ls with
  | nil => exact absurd rfl h0
  | cons l rest ih =>
    rw [rtrimLines]
    cases rest with
    | nil => simp [icalNl]
    | cons l2 rest2 =>
      rw [icalNl_cons _ _ (by simp)]
      cases hws : (l2 :: rest2).all allWsLine with
      | true =>
        rw [if_pos rfl]
        have hx : ('\n' :: icalNl (l2 :: rest2)).all jsWs = true := by
          rw [List.all_cons]
          refine (Bool.and_eq_true _ _).mpr ⟨by decide, ?_⟩
          exact icalNl_all_ws _ (fun x hx => (List.all_eq_true.mp hws) x hx)
        rw [jsRtrim_append_of_all l _ hx]
        rfl
      | false =>
        rw [if_neg (by simp)]
        have hx : (icalNl (l2 :: rest2)).all jsWs = false :=
          icalNl_not_all_ws _ hws
        have hstep : l ++ '\n' :: icalNl (l2 :: rest2)
            = (l ++ ['\n']) ++ icalNl (l2 :: rest2) := by simp
        rw [hstep, jsRtrim_append_of_not_all _ _ hx, ih (by simp),
          icalNl_cons _ _ (rtrimLines_ne_nil _ (by simp))]
        simp

/-- An exhausted dropWhile means every element satisfied the predicate. -/
theorem all_of_dropWhile_eq_nil {α : Type} (p : α → Bool) (l : List α)
    (h : l.dropWhile p = []) : l.all p = true := by
  induction l with
  | nil => rfl
  | cons a t ih =>
    rw [List.dropWhile_cons] at h
    by_cases ha : p a = true
    · rw [List.all_cons, ha, Bool.true_and]
      rw [if_pos ha] at h
      exact ih h
    · rw [if_neg ha] at h
      simp at h

/-- A nonempty line heads its own compressed list. -/
theorem compress_cons_of_ne_nil (m : Str) (z : List Str) (hm : m ≠ []) :
    compress (m :: z) = m :: compress z := by
  rw [compress]
  cases m with
  | nil => exact absurd rfl hm
  | cons c t => rfl

/-- collapseAux absorbs joined empty lines into its pending count. -/
theorem collapseAux_empties (e : List Str) : ∀ (r : List Str) k,
    (∀ x ∈ e, x.isEmpty = true) → r ≠ [] →
    collapseAux k (icalNl (e ++ r)) = collapseAux (k + e.length) (icalNl r) := by
  induction e with
  | nil => intro r k _ _; rfl
  | cons x e2 ih =>
    intro r k hx hr
    have hxe : x = [] := by
      have := hx x (List.mem_cons_self _ _)
      cases x with
      | nil => rfl
      | cons a b => simp at this
    subst hxe
    rw [List.cons_append, icalNl_cons _ _ (by simp [hr]),
      List.nil_append]
    rw [show collapseAux k ('\n' :: icalNl (e2 ++ r)) =
      collapseAux (k + 1) (icalNl (e2 ++ r)) from by rw [collapseAux, if_pos rfl]]
    rw [ih r (k + 1) (fun y hy => hx y (List.mem_cons_of_mem _ hy)) hr]
    congr 1
    simp only [List.length_cons]
    omega

/-- collapseAux flushes pending newlines before a line list with a nonempty
newline-free head line. -/
theorem collapseAux_flush_lines (m : Str) (z : List Str) (k : Nat)
    (hm : m ≠ []) (hnf : nlFreeLine m = true) :
    collapseAux k (icalNl (m :: z)) =
      List.replicate (min k 2) '\n' ++ collapseAux 0 (icalNl (m :: z)) := by
  cases m with
  | nil => exact absurd rfl hm
  | cons c t =>
    have hc : ¬(c = '\n') := by
      simp only [nlFreeLine, List.all_cons, Bool.and_eq_true] at hnf
      intro h
      rw [h] at hnf
      simp at hnf
    have ht : nlFreeLine t = true := by
      simp only [nlFreeLine, List.all_cons, Bool.and_eq_true] at hnf
      exact hnf.2
    cases z with
    | nil =>
      have h1 : icalNl [c :: t] = (c :: t) ++ [] := by simp [icalNl]
      rw [h1, collapseAux_flush k c t hc ht [], collapseAux_copy _ hnf []]
      simp [List.append_assoc]
    | cons z1 z2 =>
      rw [icalNl_cons _ _ (by simp), collapseAux_flush k c t hc ht _,
        collapseAux_copy _ hnf _]
      simp [List.append_assoc]

/-- Collapsing a joined line list whose first and last lines are nonempty
compresses the runs of empty lines, line-level form. -/
theorem collapseNl_icalNl_aux : ∀ n (ls : List Str), ls.length ≤ n →
    (∀ l ∈ ls, nlFreeLine l = true) →
    (∀ h, ls.head? = some h → h ≠ []) →
    (∀ g, ls.getLast? = some g → g ≠ []) →
    collapseAux 0 (icalNl ls) = icalNl (compress ls) := by
  intro n
  induction n with
  | zero =>
    intro ls hlen _ _ _
    have : ls = [] := List.eq_nil_of_length_eq_zero (Nat.le_zero.mp hlen)
    subst this
    rw [show compress [] = [] from by rw [compress]]
    rfl
  | succ n ih =>
    intro ls hlen hnf hhead hlast
    cases ls with
    | nil =>
      rw [show compress [] = [] from by rw [compress]]
      rfl
    | cons l rest =>
      have hl : l ≠ [] := hhead l rfl
      cases rest with
      | nil =>
        rw [compress_cons_of_ne_nil l [] hl,
          show compress [] = [] from by rw [compress]]
        simp only [icalNl]
        have := collapseAux_copy l (hnf l (List.mem_cons_self _ _)) []
        simpa [show collapseAux 0 [] = [] from by simp [collapseAux]] using this
      | cons r1 r2 =>
        have hrne : r1 :: r2 ≠ [] := by simp
        have hglast : ∀ g, (r1 :: r2).getLast? = some g → g ≠ [] := by
          intro g hg
          exact hlast g (by rw [List.getLast?_cons_cons]; exact hg)
        set e := (r1 :: r2).takeWhile (fun x => x.isEmpty) with he
        set rest2 := (r1 :: r2).dropWhile (fun x => x.isEmpty) with hrest2
        have hsplit : r1 :: r2 = e ++ rest2 := by
          rw [he, hrest2, List.takeWhile_append_dropWhile]
        have hrest2ne : rest2 ≠ [] := by
          intro hz
          have hall : (r1 :: r2).all (fun x => x.isEmpty) = true :=
            all_of_dropWhile_eq_nil _ _ (by rw [← hrest2]; exact hz)
          have hg : ∃ g, (r1 :: r2).getLast? = some g := by
            cases hgl : (r1 :: r2).getLast? with
            | none => simp at hgl
            | some g => exact ⟨g, rfl⟩
          rcases hg with ⟨g, hg⟩
          have hgm : g ∈ r1 :: r2 := List.mem_of_getLast?_eq_some hg
          have : g.isEmpty = true := List.all_eq_true.mp hall g hgm
          have hgne := hglast g hg
          cases g with
          | nil => exact hgne rfl
          | cons a b => simp at this
        have hem : ∀ x ∈ e, x.isEmpty = true := by
          intro x hx
          rw [he] at hx
          exact List.mem_takeWhile_imp hx
        obtain ⟨m, rest3, hm⟩ : ∃ m rest3, rest2 = m :: rest3 := by
          cases hc2 : rest2 with
          | nil => exact absurd hc2 hrest2ne
          | cons a b => exact ⟨a, b, rfl⟩
        have hmne : m ≠ [] := by
          have hhd : rest2.head? = some m := by rw [hm]; rfl
          have := dropWhile_head_not (fun x : Str => x.isEmpty) (r1 :: r2) m
            (by rw [← hrest2]; exact hhd)
          cases m with
          | nil => simp at this
          | cons a b => simp
        have hmem2 : ∀ x ∈ rest2, x ∈ l :: r1 :: r2 := by
          intro x hx
          have : x ∈ r1 :: r2 := by
            rw [hsplit]
            exact List.mem_append.mpr (Or.inr hx)
          exact List.mem_cons_of_mem _ this
        have hmnf : nlFreeLine m = true :=
          hnf m (hmem2 m (by rw [hm]; exact List.mem_cons_self _ _))
        have hlen2 : rest2.length ≤ n := by
          have h1 : rest2.length ≤ (r1 :: r2).length :=
            (List.dropWhile_sublist _).length_le
          simp only [List.length_cons] at hlen h1 ⊢
          omega
        have hrec : collapseAux 0 (icalNl rest2) = icalNl (compress rest2) := by
          refine ih rest2 hlen2 (fun x hx => hnf x (hmem2 x hx)) ?_ ?_
          · intro h hh
            rw [hm] at hh
            have : m = h := by simpa using hh
            subst this
            exact hmne
          · intro g hg
            refine hglast g ?_
            rw [hsplit, List.getLast?_append, hg]
            rfl
        have hcomprest : compress (r1 :: r2) =
            (if e.isEmpty then [] else [[]]) ++ compress rest2 := by
          cases hecase : e with
          | nil =>
            have : r1 :: r2 = rest2 := by rw [hsplit, hecase]; rfl
            rw [this]
            rfl
          | cons x e2 =>
            have hx : x = [] := by
              have := hem x (by rw [hecase]; exact List.mem_cons_self _ _)
              cases x with
              | nil => rfl
              | cons a b => simp at this
            have hr12 : r1 :: r2 = [] :: (e2 ++ rest2) := by
              rw [hsplit, hecase, hx]
              rfl
            rw [hr12, compress]
            simp only [List.isEmpty_nil, if_pos]
            have hdw : (e2 ++ rest2).dropWhile (fun x => x.isEmpty) = rest2 := by
              rw [dropWhile_append_of_all _ _ _ (by
                rw [List.all_eq_true]
                intro y hy
                exact hem y (by rw [hecase]; exact List.mem_cons_of_mem _ hy))]
              rw [hm, List.dropWhile_cons, if_neg (by
                cases m with
                | nil => exact absurd rfl hmne
                | cons a b => simp)]
            rw [hdw]
            simp [hecase]
        rw [icalNl_cons _ _ hrne,
          collapseAux_copy l (hnf l (List.mem_cons_self _ _)) _,
          show collapseAux 0 ('\n' :: icalNl (r1 :: r2)) =
            collapseAux 1 (icalNl (r1 :: r2)) from by rw [collapseAux, if_pos rfl],
          show icalNl (r1 :: r2) = icalNl (e ++ rest2) from by rw [← hsplit],
          collapseAux_empties e rest2 1 hem hrest2ne,
          hm, collapseAux_flush_lines m rest3 _ hmne hmnf, ← hm, hrec,
          compress_cons_of_ne_nil l _ hl, hcomprest]
        cases hecase : e with
        | nil =>
          rw [show ((if ([] : List Str).isEmpty = true then ([] : List Str)
              else [[]]) ++ compress rest2) = compress rest2 from by simp]
          rw [icalNl_cons l (compress rest2) (by
            rw [hm, compress_cons_of_ne_nil m rest3 hmne]
            simp)]
          simp
        | cons x e2 =>
          have hmin : min (1 + (x :: e2).length) 2 = 2 := by
            simp only [List.length_cons]
            omega
          rw [hmin]
          rw [show ((if (x :: e2).isEmpty = true then ([] : List Str)
              else [[]]) ++ compress rest2) = [] :: compress rest2 from by simp]
          rw [icalNl_cons l ([] :: compress rest2) (by simp),
            icalNl_cons [] (compress rest2) (by
              rw [hm, compress_cons_of_ne_nil m rest3 hmne]
              simp)]
          simp

/-- One step of the line loop, with the state updates named and the according
let bindings expanded. -/
theorem cleanLines_cons (line : Str) (rest : List Str) (skipU0 : Nat)
    (inToc0 : Bool) (tocLvl0 cnt : Nat) :
    cleanLines (line :: rest) skipU0 inToc0 tocLvl0 cnt =
      (if 0 < skipStep line skipU0 then
        cleanLines rest (skipStep line skipU0) (tocFlagStep line inToc0 tocLvl0)
          (tocLvlStep line inToc0 tocLvl0) cnt
      else if isSkipSectionHeader line then
        cleanLines rest
          (if getHeaderLevel line == 0 then 1 else getHeaderLevel line)
          (tocFlagStep line inToc0 tocLvl0) (tocLvlStep line inToc0 tocLvl0) cnt
      else if isTocHeader line then
        cleanLines rest (skipStep line skipU0) true
          (if getHeaderLevel line == 0 then 1 else getHeaderLevel line) cnt
      else if tocFlagStep line inToc0 tocLvl0 &&
          (isTocEntry line || (jsTrim line).isEmpty) then
        cleanLines rest (skipStep line skipU0) (tocFlagStep line inToc0 tocLvl0)
          (tocLvlStep line inToc0 tocLvl0) cnt
      else if shouldRemoveLine line then
        cleanLines rest (skipStep line skipU0)
          (tocFlagExit line (tocFlagStep line inToc0 tocLvl0))
          (tocLvlExit line (tocFlagStep line inToc0 tocLvl0)
            (tocLvlStep line inToc0 tocLvl0)) cnt
      else if (jsTrim line).isEmpty then
        (if 2 < cnt + 1 then
          cleanLines rest (skipStep line skipU0)
            (tocFlagExit line (tocFlagStep line inToc0 tocLvl0))
            (tocLvlExit line (tocFlagStep line inToc0 tocLvl0)
              (tocLvlStep line inToc0 tocLvl0)) (cnt + 1)
        else
          line :: cleanLines rest (skipStep line skipU0)
            (tocFlagExit line (tocFlagStep line inToc0 tocLvl0))
            (tocLvlExit line (tocFlagStep line inToc0 tocLvl0)
              (tocLvlStep line inToc0 tocLvl0)) (cnt + 1))
      else
        line :: cleanLines rest (skipStep line skipU0)
          (tocFlagExit line (tocFlagStep line inToc0 tocLvl0))
          (tocLvlExit line (tocFlagStep line inToc0 tocLvl0)
            (tocLvlStep line inToc0 tocLvl0)) 0) := rfl

/-- A blank-run scan accepting from a larger pending count accepts from a
smaller one. -/
theorem blanksOK_mono (ls : List Str) : ∀ c c2, c2 ≤ c →
    blanksOK c ls = true → blanksOK c2 ls = true := by
  induction ls with
  | nil => intro c c2 _ _; rfl
  | cons l rest ih =>
    intro c c2 hle h
    rw [blanksOK] at h ⊢
    by_cases hb : isBlankLine l = true
    · rw [if_pos hb] at h ⊢
      rcases (Bool.and_eq_true _ _).mp h with ⟨h1, h2⟩
      refine (Bool.and_eq_true _ _).mpr
        ⟨decide_eq_true ?_, ih (c + 1) (c2 + 1) (by omega) h2⟩
      have := of_decide_eq_true h1
      omega
    · rw [if_neg hb] at h ⊢
      exact h

/-- Every line kept by the cleaner's line loop is an input line that no
removal test matches. -/
theorem cleanLines_mem : ∀ (ls : List Str) (a : Nat) (b : Bool) (c cnt : Nat)
    (l : Str), l ∈ cleanLines ls a b c cnt → l ∈ ls ∧ keepLine l = true := by
  intro ls
  induction ls with
  | nil =>
    intro a b c cnt l hl
    rw [cleanLines] at hl
    simp at hl
  | cons line rest ih =>
    intro a b c cnt l hl
    have hdrop : ∀ (A : Nat) (B : Bool) (C D : Nat),
        l ∈ cleanLines rest A B C D → l ∈ line :: rest ∧ keepLine l = true := by
      intro A B C D h
      rcases ih A B C D l h with ⟨hmem, hkeep⟩
      exact ⟨List.mem_cons_of_mem _ hmem, hkeep⟩
    rw [cleanLines_cons] at hl
    repeat' split at hl
    all_goals first
      | exact hdrop _ _ _ _ hl
      | (rcases List.mem_cons.mp hl with h | h
         · subst h
           exact ⟨List.mem_cons_self _ _, by simp [keepLine, *]⟩
         · exact hdrop _ _ _ _ h)

/-- The kept lines never hold more than two consecutive blank lines,
starting from the loop's pending count. -/
theorem cleanLines_blanksOK : ∀ (ls : List Str) (a : Nat) (b : Bool)
    (c cnt : Nat), blanksOK cnt (cleanLines ls a b c cnt) = true := by
  intro ls
  induction ls with
  | nil => intro a b c cnt; rw [cleanLines]; rfl
  | cons line rest ih =>
    intro a b c cnt
    rw [cleanLines_cons]
    repeat' split
    all_goals first
      | exact ih _ _ _ _
      | exact blanksOK_mono _ _ _ (Nat.le_succ _) (ih _ _ _ _)
      | (rw [blanksOK, if_pos (by simp only [isBlankLine]; assumption)]
         refine (Bool.and_eq_true _ _).mpr
           ⟨decide_eq_true (by omega), ih _ _ _ _⟩)
      | (rw [blanksOK, if_neg (by simp only [isBlankLine]; assumption)]
         exact ih _ _ _ _)

/-- On input whose lines all pass the removal tests and whose blank runs
are short, the line loop at the rest state keeps everything. -/
theorem cleanLines_id : ∀ (ls : List Str) (cnt : Nat),
    (∀ l ∈ ls, keepLine l = true) → blanksOK cnt ls = true →
    cleanLines ls 0 false 0 cnt = ls := by
  intro ls
  induction ls with
  | nil => intro cnt _ _; rw [cleanLines]
  | cons line rest ih =>
    intro cnt hkeep hblank
    have hk := hkeep line (List.mem_cons_self _ _)
    simp only [keepLine, Bool.and_eq_true, Bool.not_eq_true'] at hk
    rcases hk with ⟨⟨h1, h2⟩, h3⟩
    have hkrest : ∀ l ∈ rest, keepLine l = true :=
      fun l hl => hkeep l (List.mem_cons_of_mem _ hl)
    rw [blanksOK] at hblank
    rw [cleanLines_cons]
    simp only [skipStep, tocFlagStep, tocLvlStep, tocFlagExit, tocLvlExit,
      ite_self, h1, h2, h3]
    by_cases hb : isBlankLine line = true
    · rw [if_pos hb] at hblank
      rcases (Bool.and_eq_true _ _).mp hblank with ⟨hc, hrest⟩
      have hc2 := of_decide_eq_true hc
      simp only [isBlankLine] at hb
      simp only [hb]
      rw [ih (cnt + 1) hkrest hrest]
      have hlt : ¬(2 < cnt + 1) := by omega
      simp [hlt]
    · rw [if_neg hb] at hblank
      simp only [isBlankLine, Bool.not_eq_true] at hb
      simp only [hb]
      rw [ih 0 hkrest hblank]
      simp

/-- An all-whitespace line is blank. -/
theorem allWs_isBlank (l : Str) (h : allWsLine l = true) :
    isBlankLine l = true := by
  unfold isBlankLine jsTrim jsLtrim
  rw [dropWhile_eq_nil_of_all jsWs l h]
  rfl

/-- Left-trimming does not change blankness. -/
theorem isBlank_jsLtrim (l : Str) : isBlankLine (jsLtrim l) = isBlankLine l := by
  unfold isBlankLine
  rw [jsTrim_jsLtrim]

/-- Right-trimming does not change blankness. -/
theorem isBlank_jsRtrim (l : Str) : isBlankLine (jsRtrim l) = isBlankLine l := by
  unfold isBlankLine
  rw [jsTrim_jsRtrim]

/-- The removal tests only look at the trimmed line. -/
theorem keepLine_congr (l l2 : Str) (h : jsTrim l = jsTrim l2) :
    keepLine l = keepLine l2 := by
  unfold keepLine isSkipSectionHeader isTocHeader shouldRemoveLine hashPhraseMatch
  rw [h]

/-- Left-trimming does not change the removal tests. -/
theorem keepLine_jsLtrim (l : Str) : keepLine (jsLtrim l) = keepLine l :=
  keepLine_congr _ _ (jsTrim_jsLtrim l)

/-- Right-trimming does not change the removal tests. -/
theorem keepLine_jsRtrim (l : Str) : keepLine (jsRtrim l) = keepLine l :=
  keepLine_congr _ _ (jsTrim_jsRtrim l)

/-- The empty line passes every removal test. -/
theorem keepLine_nil : keepLine [] = true := by decide

/-- A list whose emptiness test passes is the empty list. -/
theorem eq_nil_of_isEmpty {α : Type} (l : List α) (h : l.isEmpty = true) :
    l = [] := by
  cases l with
  | nil => rfl
  | cons a t => simp at h

/-- A list with a failing all test is nonempty. -/
theorem ne_nil_of_all_false {α : Type} (p : α → Bool) (l : List α)
    (h : l.all p = false) : l ≠ [] := by
  intro hz
  rw [hz] at h
  simp at h

/-- dropWhile keeps a witness against the all test. -/
theorem all_dropWhile_false {α : Type} (p : α → Bool) (l : List α)
    (h : l.all p = false) : (l.dropWhile p).all p = false := by
  have hsplit := List.takeWhile_append_dropWhile (p := p) (l := l)
  have htake : (l.takeWhile p).all p = true := by
    rw [List.all_eq_true]
    intro x hx
    exact List.mem_takeWhile_imp hx
  rw [← hsplit, List.all_append, htake, Bool.true_and] at h
  exact h

/-- Right trim keeps a witness against the whitespace test. -/
theorem jsRtrim_all_false (l : Str) (h : l.all jsWs = false) :
    (jsRtrim l).all jsWs = false := by
  unfold jsRtrim
  rw [all_reverse]
  exact all_dropWhile_false jsWs l.reverse (by rw [all_reverse]; exact h)

/-- A character of the right-trimmed line is a character of the line. -/
theorem mem_jsRtrim (l : Str) (c : Char) (h : c ∈ jsRtrim l) : c ∈ l := by
  unfold jsRtrim at h
  rw [List.mem_reverse] at h
  have := (List.dropWhile_sublist jsWs).subset h
  rwa [List.mem_reverse] at this

/-- A subset line inherits newline-freeness. -/
theorem nlFree_of_subset (l2 l : Str) (hsub : ∀ ch ∈ l2, ch ∈ l)
    (h : nlFreeLine l = true) : nlFreeLine l2 = true := by
  rw [nlFreeLine, List.all_eq_true]
  intro ch hch
  exact (List.all_eq_true.mp h) ch (hsub ch hch)

/-- Every line of the line-level left trim is a line of the input up to
edge trimming. -/
theorem ltrimLines_members (ls : List Str) : ∀ l2 ∈ ltrimLines ls,
    ∃ l ∈ ls, jsTrim l2 = jsTrim l ∧ ∀ ch ∈ l2, ch ∈ l := by
  induction ls with
  | nil => intro l2 hl2; simp [ltrimLines] at hl2
  | cons l rest ih =>
    intro l2 hl2
    cases rest with
    | nil =>
      simp only [ltrimLines, List.mem_singleton] at hl2
      subst hl2
      exact ⟨l, List.mem_cons_self _ _, jsTrim_jsLtrim l,
        fun ch hch => (List.dropWhile_sublist jsWs).subset hch⟩
    | cons r1 r2 =>
      rw [ltrimLines] at hl2
      by_cases hws : allWsLine l = true
      · rw [if_pos hws] at hl2
        rcases ih l2 hl2 with ⟨w, hw, hjt, hsub⟩
        exact ⟨w, List.mem_cons_of_mem _ hw, hjt, hsub⟩
      · rw [if_neg hws] at hl2
        rcases List.mem_cons.mp hl2 with h | h
        · subst h
          exact ⟨l, List.mem_cons_self _ _, jsTrim_jsLtrim l,
            fun ch hch => (List.dropWhile_sublist jsWs).subset hch⟩
        · exact ⟨l2, List.mem_cons_of_mem _ h, rfl, fun ch hch => hch⟩

/-- Every line of the line-level right trim is a line of the input up to
edge trimming. -/
theorem rtrimLines_members (ls : List Str) : ∀ l2 ∈ rtrimLines ls,
    ∃ l ∈ ls, jsTrim l2 = jsTrim l ∧ ∀ ch ∈ l2, ch ∈ l := by
  induction ls with
  | nil => intro l2 hl2; simp [rtrimLines] at hl2
  | cons l rest ih =>
    intro l2 hl2
    rw [rtrimLines] at hl2
    by_cases hws : rest.all allWsLine = true
    · rw [if_pos hws] at hl2
      simp only [List.mem_singleton] at hl2
      subst hl2
      exact ⟨l, List.mem_cons_self _ _, jsTrim_jsRtrim l,
        fun ch hch => mem_jsRtrim l ch hch⟩
    · rw [if_neg hws] at hl2
      rcases List.mem_cons.mp hl2 with h | h
      · exact ⟨l2, by rw [h]; exact List.mem_cons_self _ _, rfl,
          fun ch hch => hch⟩
      · rcases ih l2 h with ⟨w, hw, hjt, hsub⟩
        exact ⟨w, List.mem_cons_of_mem _ hw, hjt, hsub⟩

/-- Every line of the compressed list is empty or a line of the input. -/
theorem compress_members : ∀ n (ls : List Str), ls.length ≤ n →
    ∀ l2 ∈ compress ls, l2 = [] ∨ l2 ∈ ls := by
  intro n
  induction n with
  | zero =>
    intro ls hlen l2 hl2
    have : ls = [] := List.eq_nil_of_length_eq_zero (Nat.le_zero.mp hlen)
    subst this
    rw [show compress [] = [] from by rw [compress]] at hl2
    simp at hl2
  | succ n ih =>
    intro ls hlen l2 hl2
    cases ls with
    | nil =>
      rw [show compress [] = [] from by rw [compress]] at hl2
      simp at hl2
    | cons l rest =>
      rw [compress] at hl2
      by_cases hle : l.isEmpty = true
      · rw [if_pos hle] at hl2
        rcases List.mem_cons.mp hl2 with h | h
        · exact Or.inl h
        · have hlen2 : (rest.dropWhile (fun x => x.isEmpty)).length ≤ n := by
            have h1 : (rest.dropWhile (fun x : Str => x.isEmpty)).length
                ≤ rest.length := (List.dropWhile_sublist _).length_le
            simp only [List.length_cons] at hlen
            omega
          rcases ih _ hlen2 l2 h with h2 | h2
          · exact Or.inl h2
          · exact Or.inr (List.mem_cons_of_mem _
              ((List.dropWhile_sublist _).subset h2))
      · rw [if_neg hle] at hl2
        rcases List.mem_cons.mp hl2 with h | h
        · subst h
          exact Or.inr (List.mem_cons_self _ _)
        · have hlen2 : rest.length ≤ n := by
            simp only [List.length_cons] at hlen
            omega
          rcases ih rest hlen2 l2 h with h2 | h2
          · exact Or.inl h2
          · exact Or.inr (List.mem_cons_of_mem _ h2)

/-- Replacing the head by one of equal blankness keeps the blank-run
scan. -/
theorem blanksOK_head_congr (x l : Str) (t : List Str) (c : Nat)
    (h : isBlankLine x = isBlankLine l) :
    blanksOK c (x :: t) = blanksOK c (l :: t) := by
  rw [blanksOK, blanksOK, h]

/-- The blank-run scan accepts any single line from a fresh count. -/
theorem blanksOK_singleton (x : Str) : blanksOK 0 [x] = true := by
  rw [blanksOK]
  split <;> rfl

/-- The line-level left trim preserves the blank-run bound. -/
theorem blanksOK_ltrimLines (ls : List Str) (h : blanksOK 0 ls = true) :
    blanksOK 0 (ltrimLines ls) = true := by
  induction ls with
  | nil => rfl
  | cons l rest ih =>
    cases rest with
    | nil =>
      simp only [ltrimLines]
      exact blanksOK_singleton _
    | cons r1 r2 =>
      rw [ltrimLines]
      by_cases hws : allWsLine l = true
      · rw [if_pos hws]
        have hbl : isBlankLine l = true := allWs_isBlank l hws
        rw [blanksOK, if_pos hbl] at h
        rcases (Bool.and_eq_true _ _).mp h with ⟨_, h2⟩
        exact ih (blanksOK_mono _ _ _ (Nat.zero_le _) h2)
      · rw [if_neg hws]
        rw [blanksOK_head_congr _ _ _ _ (isBlank_jsLtrim l)]
        exact h

/-- The line-level right trim preserves the blank-run bound. -/
theorem blanksOK_rtrimLines (ls : List Str) : ∀ c, blanksOK c ls = true →
    blanksOK c (rtrimLines ls) = true := by
  induction ls with
  | nil => intro c _; rfl
  | cons l rest ih =>
    intro c h
    rw [rtrimLines]
    by_cases hws : rest.all allWsLine = true
    · rw [if_pos hws]
      rw [blanksOK_head_congr _ _ _ _ (isBlank_jsRtrim l)]
      rw [blanksOK] at h ⊢
      by_cases hbl : isBlankLine l = true
      · rw [if_pos hbl] at h ⊢
        rcases (Bool.and_eq_true _ _).mp h with ⟨h1, _⟩
        exact (Bool.and_eq_true _ _).mpr ⟨h1, rfl⟩
      · rw [if_neg hbl]
        rfl
    · rw [if_neg hws]
      rw [blanksOK] at h ⊢
      by_cases hbl : isBlankLine l = true
      · rw [if_pos hbl] at h ⊢
        rcases (Bool.and_eq_true _ _).mp h with ⟨h1, h2⟩
        exact (Bool.and_eq_true _ _).mpr ⟨h1, ih _ h2⟩
      · rw [if_neg hbl] at h ⊢
        exact ih _ h

/-- Dropping leading empty lines preserves the blank-run scan at the same
count. -/
theorem blanksOK_dropWhile_empty (ls : List Str) : ∀ c, blanksOK c ls = true →
    blanksOK c (ls.dropWhile (fun x => x.isEmpty)) = true := by
  induction ls with
  | nil => intro c _; rfl
  | cons l rest ih =>
    intro c h
    rw [List.dropWhile_cons]
    by_cases hle : l.isEmpty = true
    · rw [if_pos hle]
      have hbl : isBlankLine l = true := by
        rw [eq_nil_of_isEmpty l hle]
        rfl
      rw [blanksOK, if_pos hbl] at h
      rcases (Bool.and_eq_true _ _).mp h with ⟨_, h2⟩
      exact ih c (blanksOK_mono _ _ _ (Nat.le_succ _) h2)
    · rw [if_neg hle]
      exact h

/-- Compression preserves the blank-run bound. -/
theorem blanksOK_compress : ∀ n (ls : List Str), ls.length ≤ n → ∀ c,
    blanksOK c ls = true → blanksOK c (compress ls) = true := by
  intro n
  induction n with
  | zero =>
    intro ls hlen c _
    have : ls = [] := List.eq_nil_of_length_eq_zero (Nat.le_zero.mp hlen)
    subst this
    rw [show compress [] = [] from by rw [compress]]
    rfl
  | succ n ih =>
    intro ls hlen c h
    cases ls with
    | nil =>
      rw [show compress [] = [] from by rw [compress]]
      rfl
    | cons l rest =>
      rw [compress]
      by_cases hle : l.isEmpty = true
      · rw [if_pos hle]
        have hbl : isBlankLine l = true := by
          rw [eq_nil_of_isEmpty l hle]
          rfl
        rw [blanksOK, if_pos hbl] at h
        rcases (Bool.and_eq_true _ _).mp h with ⟨h1, h2⟩
        rw [blanksOK, if_pos (show isBlankLine [] = true from rfl)]
        refine (Bool.and_eq_true _ _).mpr ⟨h1, ?_⟩
        have hlen2 : (rest.dropWhile (fun x => x.isEmpty)).length ≤ n := by
          have h3 : (rest.dropWhile (fun x : Str => x.isEmpty)).length
              ≤ rest.length := (List.dropWhile_sublist _).length_le
          simp only [List.length_cons] at hlen
          omega
        exact ih _ hlen2 (c + 1) (blanksOK_dropWhile_empty rest (c + 1) h2)
      · rw [if_neg hle]
        have hlen2 : rest.length ≤ n := by
          simp only [List.length_cons] at hlen
          omega
        rw [blanksOK] at h ⊢
        by_cases hbl : isBlankLine l = true
        · rw [if_pos hbl] at h ⊢
          rcases (Bool.and_eq_true _ _).mp h with ⟨h1, h2⟩
          exact (Bool.and_eq_true _ _).mpr ⟨h1, ih rest hlen2 (c + 1) h2⟩
        · rw [if_neg hbl] at h ⊢
          exact ih rest hlen2 0 h

/-- The line-level left trim of a not-all-whitespace list starts with a
line that is not all whitespace. -/
theorem ltrimLines_head (ls : List Str) (h : ls.all allWsLine = false) :
    ∃ hd t, ltrimLines ls = hd :: t ∧ allWsLine hd = false := by
  induction ls with
  | nil => simp at h
  | cons l rest ih =>
    cases rest with
    | nil =>
      simp only [List.all_cons, List.all_nil, Bool.and_true] at h
      refine ⟨jsLtrim l, [], rfl, ?_⟩
      exact all_dropWhile_false jsWs l h
    | cons r1 r2 =>
      rw [ltrimLines]
      by_cases hws : allWsLine l = true
      · rw [if_pos hws]
        refine ih ?_
        rw [List.all_cons, hws, Bool.true_and] at h
        exact h
      · rw [if_neg hws]
        have hlf : allWsLine l = false := by
          cases hcase : allWsLine l with
          | false => rfl
          | true => exact absurd hcase hws
        exact ⟨jsLtrim l, r1 :: r2, rfl, all_dropWhile_false jsWs l hlf⟩

/-- The line-level right trim of a list headed by a not-all-whitespace
line starts with a nonempty line. -/
theorem rtrimLines_head (l : Str) (rest : List Str)
    (hl : allWsLine l = false) :
    ∃ hd t, rtrimLines (l :: rest) = hd :: t ∧ allWsLine hd = false := by
  rw [rtrimLines]
  by_cases hws : rest.all allWsLine = true
  · rw [if_pos hws]
    exact ⟨jsRtrim l, [], rfl, jsRtrim_all_false l hl⟩
  · rw [if_neg hws]
    exact ⟨l, rtrimLines rest, rfl, hl⟩

/-- The last line of the line-level right trim of a not-all-whitespace
list is not all whitespace. -/
theorem rtrimLines_getLast (ls : List Str) (h : ls.all allWsLine = false) :
    ∃ g, (rtrimLines ls).getLast? = some g ∧ allWsLine g = false := by
  induction ls with
  | nil => simp at h
  | cons l rest ih =>
    rw [rtrimLines]
    by_cases hws : rest.all allWsLine = true
    · rw [if_pos hws]
      have hlf : allWsLine l = false := by
        rw [List.all_cons, hws, Bool.and_true] at h
        exact h
      exact ⟨jsRtrim l, rfl, jsRtrim_all_false l hlf⟩
    · rw [if_neg hws]
      have hrf : rest.all allWsLine = false := by
        cases hcase : rest.all allWsLine with
        | false => rfl
        | true => exact absurd hcase hws
      rcases ih hrf with ⟨g, hg, hgw⟩
      refine ⟨g, ?_, hgw⟩
      have hne : rtrimLines rest ≠ [] :=
        rtrimLines_ne_nil rest (ne_nil_of_all_false _ _ hrf)
      cases hcase : rtrimLines rest with
      | nil => exact absurd hcase hne
      | cons x xs =>
        rw [List.getLast?_cons_cons]
        rw [hcase] at hg
        exact hg

/-- The collapsed trimmed string is still trimmed. -/
theorem jsTrim_collapseNl_jsTrim (s : Str) :
    jsTrim (collapseNl (jsTrim s)) = collapseNl (jsTrim s) := by
  cases hcase : jsTrim s with
  | nil =>
    rw [show collapseNl [] = [] from by simp [collapseNl, collapseAux]]
    rfl
  | cons c t =>
    have hc : jsWs c = false := jsTrim_head_not_ws s c (by rw [hcase]; rfl)
    have hcn : ¬(c = '\n') := by
      intro h
      rw [h] at hc
      exact absurd hc (by decide)
    cases hgl : (c :: t).getLast? with
    | none => simp at hgl
    | some d =>
      have hdw : jsWs d = false :=
        jsTrim_getLast_not_ws s d (by rw [hcase]; exact hgl)
      have hdn : ¬(d = '\n') := by
        intro h
        rw [h] at hdw
        exact absurd hdw (by decide)
      refine jsTrim_eq_self _ ?_ ?_
      · intro c2 hc2
        rw [collapseNl_head c t hcn] at hc2
        have hcc : c2 = c := by
          have := hc2
          simp at this
          exact this.symm
        rw [hcc]
        exact hc
      · intro d2 hd2
        have hlast := collapseAux_getLast (c :: t) 0 d hgl hdn
        rw [show collapseNl (c :: t) = collapseAux 0 (c :: t) from rfl,
          hlast] at hd2
        have hdd : d2 = d := by
          have := hd2
          simp at this
          exact this.symm
        rw [hdd]
        exact hdw

/-- Claim C8: the markdown cleaner is idempotent — cleaning an already
cleaned string changes nothing. -/
theorem c8_cleaner_idempotent (x : Str) :
    cleanMarkdown (cleanMarkdown x) = cleanMarkdown x := by
  have hK1 : ∀ l ∈ cleanLines (splitNl x) 0 false 0 0, keepLine l = true :=
    fun l hl => (cleanLines_mem (splitNl x) 0 false 0 0 l hl).2
  have hK3 : ∀ l ∈ cleanLines (splitNl x) 0 false 0 0, nlFreeLine l = true :=
    fun l hl =>
      splitNl_nlFree x l (cleanLines_mem (splitNl x) 0 false 0 0 l hl).1
  have hK2 : blanksOK 0 (cleanLines (splitNl x) 0 false 0 0) = true :=
    cleanLines_blanksOK (splitNl x) 0 false 0 0
  set ks := cleanLines (splitNl x) 0 false 0 0 with hks
  have hy : cleanMarkdown x = collapseNl (jsTrim (icalNl ks)) := by
    rw [cleanMarkdown, ← hks]
  have hmain : cleanLines (splitNl (cleanMarkdown x)) 0 false 0 0
      = splitNl (cleanMarkdown x) := by
    by_cases hdeg : ks.all allWsLine = true
    · have hz : cleanMarkdown x = [] := by
        rw [hy]
        rw [show jsTrim (icalNl ks) = [] from by
          unfold jsTrim
          rw [show jsLtrim (icalNl ks) = [] from
            dropWhile_eq_nil_of_all jsWs _
              (icalNl_all_ws ks (List.all_eq_true.mp hdeg))]
          rfl]
        simp [collapseNl, collapseAux]
      rw [hz]
      decide
    · have hdegf : ks.all allWsLine = false := by
        cases hcase : ks.all allWsLine with
        | false => rfl
        | true => exact absurd hcase hdeg
      have hksne : ks ≠ [] := ne_nil_of_all_false _ _ hdegf
      obtain ⟨h1, t1, hlt, h1ws⟩ := ltrimLines_head ks hdegf
      have hltne : ltrimLines ks ≠ [] := ltrimLines_ne_nil ks hksne
      have hls1f : (ltrimLines ks).all allWsLine = false := by
        rw [hlt, List.all_cons, h1ws, Bool.false_and]
      obtain ⟨hd2, t2, hrt, hd2ws⟩ : ∃ hd t,
          rtrimLines (ltrimLines ks) = hd :: t ∧ allWsLine hd = false := by
        rw [hlt]
        exact rtrimLines_head h1 t1 h1ws
      obtain ⟨g2, hg2, hg2ws⟩ := rtrimLines_getLast (ltrimLines ks) hls1f
      have hls2mem : ∀ l2 ∈ rtrimLines (ltrimLines ks),
          ∃ l ∈ ks, jsTrim l2 = jsTrim l ∧ ∀ ch ∈ l2, ch ∈ l := by
        intro l2 hl2
        rcases rtrimLines_members _ l2 hl2 with ⟨w1, hw1, hjt1, hsub1⟩
        rcases ltrimLines_members _ w1 hw1 with ⟨w, hw, hjt2, hsub2⟩
        exact ⟨w, hw, by rw [hjt1, hjt2],
          fun ch hch => hsub2 ch (hsub1 ch hch)⟩
      have hls2nf : ∀ l2 ∈ rtrimLines (ltrimLines ks),
          nlFreeLine l2 = true := by
        intro l2 hl2
        rcases hls2mem l2 hl2 with ⟨w, hw, _, hsub⟩
        exact nlFree_of_subset _ _ hsub (hK3 w hw)
      have hhd2ne : hd2 ≠ [] := by
        intro hz
        rw [hz] at hd2ws
        simp [allWsLine] at hd2ws
      have hg2ne : g2 ≠ [] := by
        intro hz
        rw [hz] at hg2ws
        simp [allWsLine] at hg2ws
      have hy2 : cleanMarkdown x
          = icalNl (compress (rtrimLines (ltrimLines ks))) := by
        rw [hy]
        rw [show jsTrim (icalNl ks) = icalNl (rtrimLines (ltrimLines ks)) from by
          unfold jsTrim
          rw [jsLtrim_icalNl ks hksne, jsRtrim_icalNl _ hltne]]
        unfold collapseNl
        refine collapseNl_icalNl_aux (rtrimLines (ltrimLines ks)).length _
          (Nat.le_refl _) hls2nf ?_ ?_
        · intro hh h
          rw [hrt] at h
          have hh2 : hd2 = hh := by simpa using h
          rw [← hh2]
          exact hhd2ne
        · intro g hg
          have hgg : g = g2 := by
            rw [hg] at hg2
            simpa using hg2
          rw [hgg]
          exact hg2ne
      have hL : splitNl (cleanMarkdown x)
          = compress (rtrimLines (ltrimLines ks)) := by
        rw [hy2]
        refine splitNl_icalNl _ ?_ ?_
        · rw [hrt, compress_cons_of_ne_nil hd2 t2 hhd2ne]
          simp
        · intro l2 hl2
          rcases compress_members _ _ (Nat.le_refl _) l2 hl2 with h | h
          · rw [h]
            rfl
          · exact hls2nf l2 h
      rw [hL]
      refine cleanLines_id _ 0 ?_ ?_
      · intro l2 hl2
        rcases compress_members _ _ (Nat.le_refl _) l2 hl2 with h | h
        · rw [h]
          exact keepLine_nil
        · rcases hls2mem l2 h with ⟨w, hw, hjt, _⟩
          rw [keepLine_congr l2 w hjt]
          exact hK1 w hw
      · refine blanksOK_compress _ _ (Nat.le_refl _) 0 ?_
        exact blanksOK_rtrimLines _ 0 (blanksOK_ltrimLines _ hK2)
  conv_lhs => rw [cleanMarkdown]
  rw [hmain, icalNl_splitNl, hy, jsTrim_collapseNl_jsTrim]
  exact collapseNl_idem _

end McpDocs
